import Mathlib

/-!
Verification of the pi-packages handoff extension (pi-handoff).

The TypeScript source is shallowly embedded here.  JavaScript strings are
embedded as `List Char` (abbreviated `Str`), so every JS string operation the
source uses (`trim`, `slice`, `join`, `replaceAll`, `toLowerCase`, regex
character classes, `indexOf`) is given an explicit executable model that is
faithful for the BMP/ASCII range actually exercised by the extension.  The
filesystem seen by `existsSync`/`readFileSync` is a finite association list
from paths to file contents, and `JSON.parse` is modelled by a small strict
parser that handles the flat JSON objects used as session headers.

Numbers (`Date.now()`, message timestamps) are embedded as `Int`.
-/

set_option maxRecDepth 20000

/-- JavaScript strings are modelled as lists of characters. -/
abbrev Str := List Char

/-- The character `{` (written via its code so it never appears raw). -/
def lbrace : Char := Char.ofNat 123

/-- The character `}` (written via its code so it never appears raw). -/
def rbrace : Char := Char.ofNat 125

/-- The JS whitespace class `\s` (the characters relevant in the BMP:
space, tab, LF, VT, FF, CR, NBSP, BOM and the Unicode space separators). -/
def jsIsWs (c : Char) : Bool :=
  let v := c.toNat
  (9 ≤ v && v ≤ 13) || v = 32 || v = 160 || v = 0x1680 ||
  (0x2000 ≤ v && v ≤ 0x200a) || v = 0x2028 || v = 0x2029 ||
  v = 0x202f || v = 0x205f || v = 0x3000 || v = 0xfeff

/-- `String.prototype.toLowerCase`, restricted to ASCII (the only characters
whose case matters for `goalToSessionName`, whose kept alphabet is ASCII). -/
def jsToLower (c : Char) : Char :=
  if 'A' ≤ c ∧ c ≤ 'Z' then Char.ofNat (c.toNat + 32) else c

/-- `String.prototype.trimStart`: drop leading JS whitespace. -/
def jsTrimStart (s : Str) : Str := s.dropWhile (fun c => jsIsWs c)

/-- `String.prototype.trimEnd`: drop trailing JS whitespace. -/
def jsTrimEnd (s : Str) : Str := (s.reverse.dropWhile (fun c => jsIsWs c)).reverse

/-- `String.prototype.trim`. -/
def jsTrim (s : Str) : Str := jsTrimEnd (jsTrimStart s)

/-- `Array.prototype.join(sep)`. -/
def jsJoin (sep : Str) : List Str → Str
  | [] => []
  | [x] => x
  | x :: y :: t => x ++ sep ++ jsJoin sep (y :: t)

/-- Split a string at every newline character (the view of a text as lines). -/
def splitNl : Str → List Str
  | [] => [[]]
  | c :: rest =>
    match splitNl rest with
    | [] => [[c]]
    | h :: t => if c = '\n' then [] :: h :: t else (c :: h) :: t

/-- `p` is a prefix of `s`. -/
def LeadsIn (p s : Str) : Prop := ∃ t, p ++ t = s

/-- `p` occurs somewhere inside `s` (JS `String.prototype.includes`). -/
def OccursIn (p s : Str) : Prop := ∃ u v, s = u ++ p ++ v

/-- Fuel-driven core of `String.prototype.replaceAll`: scan left to right,
replacing each non-overlapping occurrence of `p :: ps` by `rep`; the
replacement text is not rescanned.  `fuel ≥ length of the scanned string + 1`
always suffices since every step consumes at least one character. -/
def replaceAllGo (p : Char) (ps rep : Str) : Nat → Str → Str
  | 0, s => s
  | _ + 1, [] => []
  | fuel + 1, c :: rest =>
    if (p :: ps).isPrefixOf (c :: rest) then
      rep ++ replaceAllGo p ps rep fuel (rest.drop ps.length)
    else
      c :: replaceAllGo p ps rep fuel rest

/-- `String.prototype.replaceAll` with a plain-string pattern (an empty
pattern never arises in the source; it is mapped to the identity). -/
def jsReplaceAll (s pat rep : Str) : Str :=
  match pat with
  | [] => s
  | p :: ps => replaceAllGo p ps rep (s.length + 1) s

/-- `String.prototype.includes`, as a Bool scan. -/
def jsIncludes : Str → Str → Bool
  | s, pat =>
    pat.isPrefixOf s ||
      match s with
      | [] => false
      | _ :: t => jsIncludes t pat

/-- `String.prototype.indexOf` for a single character: the index of the first
occurrence, or `-1`. -/
def jsIndexOfChar (s : Str) (c : Char) : Int :=
  match s.findIdx? (· = c) with
  | some i => (i : Int)
  | none => -1

/-- `String.prototype.slice(0, e)` (only the shapes the source uses). -/
def jsSliceTo (s : Str) (e : Int) : Str :=
  if e < 0 then s.take (s.length - min s.length e.natAbs) else s.take e.toNat

/-- The decimal digit characters used when a number is interpolated into a
template literal. -/
def digitChar : Nat → Char
  | 0 => '0' | 1 => '1' | 2 => '2' | 3 => '3' | 4 => '4'
  | 5 => '5' | 6 => '6' | 7 => '7' | 8 => '8' | 9 => '9'
  | _ => '0'

/-- Fuel-driven decimal rendering of a natural number. -/
def natDecimalGo : Nat → Nat → Str
  | 0, _ => []
  | fuel + 1, n =>
    if n < 10 then [digitChar n]
    else natDecimalGo fuel (n / 10) ++ [digitChar (n % 10)]

/-- Decimal rendering of a natural number, as a JS template literal does. -/
def natDecimal (n : Nat) : Str := natDecimalGo (n + 1) n

/-! ## JSON model

`JSON.parse` is modelled by a strict parser for the flat JSON objects the
session store writes as headers: an object whose values are strings or plain
scalar tokens, in compact form (no interior whitespace between tokens, which
is how the host serializes headers; the surrounding line is `trim`med by the
caller).  Anything else fails to parse, which the caller's `try/catch`
converts to `null` exactly as in the source. -/

/-- A flat JSON value: a string, or a scalar token (number/boolean/null)
kept as its raw text. -/
inductive JVal where
  | str (s : Str)
  | scalar (raw : Str)
deriving DecidableEq, Repr

/-- Parse a JSON string body after the opening quote; returns the decoded
content and the remainder after the closing quote. -/
def parseStringLit : Str → Option (Str × Str)
  | [] => none
  | '"' :: rest => some ([], rest)
  | '\\' :: c :: rest =>
    (parseStringLit rest).map (fun r => ((if c = 'n' then '\n' else c) :: r.1, r.2))
  | ['\\'] => none
  | c :: rest => (parseStringLit rest).map (fun r => (c :: r.1, r.2))

/-- Is `t` a valid scalar token (number, boolean or null)? -/
def validScalar (t : Str) : Bool :=
  t = "true".toList || t = "false".toList || t = "null".toList ||
    (!t.isEmpty && t.all (fun c => c.isDigit || c ∈ ['-', '+', '.', 'e', 'E']))

/-- Parse one JSON value (string or scalar); returns the value and remainder. -/
def parseValue (s : Str) : Option (JVal × Str) :=
  match s with
  | '"' :: rest => (parseStringLit rest).map (fun r => (JVal.str r.1, r.2))
  | _ =>
    let tok := s.takeWhile (fun c => c ≠ ',' ∧ c ≠ rbrace)
    let rest := s.dropWhile (fun c => c ≠ ',' ∧ c ≠ rbrace)
    if validScalar tok then some (JVal.scalar tok, rest) else none

/-- Parse the members of a JSON object after the opening brace
(`"key":value` pairs separated by commas, then the closing brace). -/
def parseMembers : Nat → Str → Option (List (Str × JVal) × Str)
  | 0, _ => none
  | fuel + 1, s =>
    match s with
    | '"' :: rest =>
      match parseStringLit rest with
      | none => none
      | some (key, r1) =>
        match r1 with
        | ':' :: r2 =>
          match parseValue r2 with
          | none => none
          | some (v, r3) =>
            match r3 with
            | ',' :: r4 =>
              (parseMembers fuel r4).map (fun r => ((key, v) :: r.1, r.2))
            | c :: r4 =>
              if c = rbrace then some ([(key, v)], r4) else none
            | [] => none
        | _ => none
    | _ => none

/-- `JSON.parse`, restricted to flat objects (see the section comment). -/
def parseJsonFlat (s : Str) : Option (List (Str × JVal)) :=
  match s with
  | c :: rest =>
    if c = lbrace then
      match rest with
      | d :: r2 =>
        if d = rbrace then (if r2 = [] then some [] else none)
        else
          match parseMembers (s.length) rest with
          | some (fields, rem) => if rem = [] then some fields else none
          | none => none
      | [] => none
    else none
  | [] => none

/-- Look up a field of a parsed JSON object (first occurrence wins, as
`JSON.parse` keeps the last — headers never repeat keys, so this is moot). -/
def lookupField (fields : List (Str × JVal)) (key : Str) : Option JVal :=
  match fields.find? (fun f => f.1 = key) with
  | some f => some f.2
  | none => none

/-! ## Filesystem model -/

/-- The filesystem: a finite association of file paths to contents.
`existsSync`/`readFileSync` become a lookup; a failed lookup models a
missing (or unreadable) file. -/
abbrev FS := List (Str × Str)

/-- Combined `existsSync` + `readFileSync` (any I/O failure is `none`,
matching the `try/catch` in `getSessionHeader`). -/
def fsLookup (fs : FS) (path : Str) : Option Str :=
  match fs.find? (fun f => f.1 = path) with
  | some f => some f.2
  | none => none

/-! ## Source embedding: session headers and ancestry
(from `getSessionHeader` / `getSessionAncestry` in the handoff extension) -/

/-- A parsed session header (`parsed.type === "session"` was checked). -/
structure SessionHeaderM where
  fields : List (Str × JVal)
deriving DecidableEq, Repr

/-- The first line of the content exactly as the source computes it:
`content.slice(0, content.indexOf("\n")).trim()`.  Note that when the
content has no newline, `indexOf` is `-1` and `slice(0, -1)` removes the
final character. -/
def firstLineOf (content : Str) : Str :=
  jsTrim (jsSliceTo content (jsIndexOfChar content '\n'))

/-- `getSessionHeader`: read a session file's header from its first line. -/
def getSessionHeader (fs : FS) (sessionFile : Str) : Option SessionHeaderM :=
  match fsLookup fs sessionFile with
  | none => none
  | some content =>
    let firstLine := firstLineOf content
    if firstLine = [] then none
    else
      match parseJsonFlat firstLine with
      | none => none
      | some fields =>
        if lookupField fields "type".toList = some (JVal.str "session".toList) then
          some ⟨fields⟩
        else none

/-- `header?.parentSession`: the parent path if the header parsed and holds a
string-valued `parentSession` field, else JS `undefined` (here `none`). -/
def headerParent (h : Option SessionHeaderM) : Option Str :=
  match h with
  | none => none
  | some hdr =>
    match lookupField hdr.fields "parentSession".toList with
    | some (JVal.str s) => some s
    | _ => none

/-- The loop body of `getSessionAncestry`.  The source keeps a `visited` Set
and an `ancestry` array that receive exactly the same pushes; both are kept
here to mirror the source.  The `while (current && !visited.has(current))`
condition is JS truthiness: an empty-string parent ends the walk.  The fuel
only bounds the walk length; `fs.length + 2` is always enough because every
step that continues consumed a distinct parsed file of `fs`. -/
def ancestryGo (fs : FS) : Nat → List Str → List Str → Option Str → List Str
  | 0, _, ancestry, _ => ancestry
  | fuel + 1, visited, ancestry, current =>
    match current with
    | none => ancestry
    | some c =>
      if c = [] then ancestry
      else if c ∈ visited then ancestry
      else
        ancestryGo fs fuel (visited ++ [c]) (ancestry ++ [c])
          (headerParent (getSessionHeader fs c))

/-- `getSessionAncestry`: walk the parent chain from the given file. -/
def getSessionAncestry (fs : FS) (parentSessionFile : Str) : List Str :=
  ancestryGo fs (fs.length + 2) [] [] (some parentSessionFile)

/-! ## Source embedding: `wrapWithParentSession` -/

/-- `wrapWithParentSession`: wrap a handoff prompt with the skill directive
and the parent/ancestor session block.  `ancestry[0]` out of range renders
as JS `undefined` in a template literal; that case is unreachable for a
non-empty parent and is kept only for faithfulness. -/
def wrapWithParentSession (fs : FS) (prompt : Str) (parentSessionFile : Option Str) : Str :=
  match parentSessionFile with
  | none => prompt
  | some p =>
    if p = [] then prompt
    else
      let ancestry := getSessionAncestry fs p
      let lines : List Str :=
        ["/skill:pi-session-query".toList, []] ++
        ["**Parent session:** `".toList ++ ancestry.headD "undefined".toList ++ "`".toList] ++
        (if ancestry.length > 1 then
          [[], "**Ancestor sessions:**".toList] ++
            (ancestry.drop 1).map (fun a => "- `".toList ++ a ++ "`".toList)
         else []) ++
        [[]]
      jsJoin "\n".toList lines ++ prompt

/-! ## Source embedding: `goalToSessionName` -/

/-- The character class kept by the regex `[^a-z0-9\s-]` (everything outside
it is deleted). -/
def keepClass (c : Char) : Bool :=
  ('a' ≤ c && c ≤ 'z') || ('0' ≤ c && c ≤ '9') || jsIsWs c || c = '-'

/-- The regex replace `/\s+/g → "-"`: collapse each maximal run of JS
whitespace to a single hyphen.  The flag records whether the scan is inside
a run whose hyphen was already emitted. -/
def collapseWs : Bool → Str → Str
  | _, [] => []
  | inRun, c :: rest =>
    if jsIsWs c then
      if inRun then collapseWs true rest else '-' :: collapseWs true rest
    else c :: collapseWs false rest

/-- `goalToSessionName`: goal → session-name slug
(`toLowerCase`, strip `[^a-z0-9\s-]`, `trim`, `\s+ → "-"`, `slice(0, 50)`). -/
def goalToSessionName (goal : Str) : Str :=
  (collapseWs false (jsTrim ((goal.map jsToLower).filter keepClass))).take 50

/-! ## Source embedding: the context-event filter -/

/-- A message as the `context` event carries it: only the timestamp matters
to the filter; `payload` stands for all other fields. -/
structure CtxMsg where
  timestamp : Int
  payload : Nat
deriving DecidableEq, Repr

/-- The `pi.on("context")` handler: with no handoff timestamp, pass through
(return no modifier); otherwise restrict to messages with
`timestamp >= handoffTimestamp`, but only when the result is non-empty. -/
def contextHandler (handoffTimestamp : Option Int) (messages : List CtxMsg) :
    Option (List CtxMsg) :=
  match handoffTimestamp with
  | none => none
  | some t =>
    let newMessages := messages.filter (fun m => t ≤ m.timestamp)
    if newMessages.length > 0 then some newMessages else none

/-! ## Source embedding: file-operation tracking -/

/-- A content block of a conversation message, as `extractFileOpsFromMessage`
inspects it: a `toolCall` block carries `arguments` (which may be absent:
`hasArguments = false` models a falsy `block.arguments`), a `name`, and
`path = arguments.path` when that field is a string (`none` otherwise). -/
inductive CBlockM where
  | toolCall (hasArguments : Bool) (name : Str) (path : Option Str)
  | otherBlock
deriving DecidableEq, Repr

/-- A conversation message for file-op extraction: its `role` and its
`content` when that is an array (`none` models non-array content). -/
structure MsgE where
  role : Str
  content : Option (List CBlockM)
deriving DecidableEq, Repr

/-- The three path sets of `createFileOps` (JS `Set`s: insertion order,
no duplicates). -/
structure FileOps where
  read : List Str
  written : List Str
  edited : List Str
deriving DecidableEq, Repr

/-- `Set.prototype.add`: append if not already present. -/
def setAdd (l : List Str) (x : Str) : List Str :=
  if x ∈ l then l else l ++ [x]

def createFileOps : FileOps := ⟨[], [], []⟩

/-- One block's contribution in `extractFileOpsFromMessage`: skip anything
that is not a `toolCall` with truthy `arguments`, truthy `name` and a truthy
string `path`; then dispatch on the tool name. -/
def extractFromBlock (fileOps : FileOps) : CBlockM → FileOps
  | CBlockM.otherBlock => fileOps
  | CBlockM.toolCall hasArguments name path =>
    if !hasArguments || name = [] then fileOps
    else
      match path with
      | none => fileOps
      | some p =>
        if p = [] then fileOps
        else if name = "read".toList then { fileOps with read := setAdd fileOps.read p }
        else if name = "write".toList then { fileOps with written := setAdd fileOps.written p }
        else if name = "edit".toList then { fileOps with edited := setAdd fileOps.edited p }
        else fileOps

/-- `extractFileOpsFromMessage`: only assistant messages with array content
contribute. -/
def extractFileOpsFromMessage (message : MsgE) (fileOps : FileOps) : FileOps :=
  if message.role ≠ "assistant".toList then fileOps
  else
    match message.content with
    | none => fileOps
    | some blocks => blocks.foldl extractFromBlock fileOps

/-- The accumulated `FileOps` of a message list. -/
def fileOpsOf (messages : List MsgE) : FileOps :=
  messages.foldl (fun fo m => extractFileOpsFromMessage m fo) createFileOps

/-- `new Set([...fileOps.edited, ...fileOps.written])` (insertion order). -/
def modifiedSetOf (messages : List MsgE) : List Str :=
  ((fileOpsOf messages).edited ++ (fileOpsOf messages).written).foldl setAdd []

/-- `[...fileOps.read].filter((f) => !modified.has(f)).sort()`. -/
def readFilesOf (messages : List MsgE) : List Str :=
  List.insertionSort (· ≤ ·)
    (((fileOpsOf messages).read).filter (fun f => f ∉ modifiedSetOf messages))

/-- `[...modified].sort()`. -/
def modifiedFilesOf (messages : List MsgE) : List Str :=
  List.insertionSort (· ≤ ·) (modifiedSetOf messages)

/-- `createReadMarker`. -/
def createReadMarker (count : Nat) : Str :=
  "[+".toList ++ natDecimal count ++ " read filename".toList ++
    (if count = 1 then [] else "s".toList) ++ "]".toList

/-- `createModifiedMarker`. -/
def createModifiedMarker (count : Nat) : Str :=
  "[+".toList ++ natDecimal count ++ " modified filename".toList ++
    (if count = 1 then [] else "s".toList) ++ "]".toList

/-- The marker → expansion map (a JS `Map`, iterated in insertion order). -/
abbrev FileMarkerStore := List (Str × Str)

/-- The result record of `buildFileOperations`. -/
structure FileOpsResult where
  markers : Str
  expansions : FileMarkerStore
deriving DecidableEq, Repr

/-- The `<read-files>` expansion block. -/
def readExpansion (readFiles : List Str) : Str :=
  "<read-files>".toList ++ '\n' :: jsJoin "\n".toList readFiles ++
    '\n' :: "</read-files>".toList

/-- The `<modified-files>` expansion block. -/
def modifiedExpansion (modifiedFiles : List Str) : Str :=
  "<modified-files>".toList ++ '\n' :: jsJoin "\n".toList modifiedFiles ++
    '\n' :: "</modified-files>".toList

/-- `buildFileOperations`: collapsed markers + expansion map, or `null` when
no file operations were found. -/
def buildFileOperations (messages : List MsgE) : Option FileOpsResult :=
  let readFiles := readFilesOf messages
  let modifiedFiles := modifiedFilesOf messages
  if readFiles = [] ∧ modifiedFiles = [] then none
  else
    let readPart : List (Str × Str) :=
      if readFiles = [] then []
      else [(createReadMarker readFiles.length, readExpansion readFiles)]
    let modifiedPart : List (Str × Str) :=
      if modifiedFiles = [] then []
      else [(createModifiedMarker modifiedFiles.length, modifiedExpansion modifiedFiles)]
    let expansions := readPart ++ modifiedPart
    some ⟨jsJoin "\n".toList (expansions.map (fun e => e.1)), expansions⟩

/-- `expandFileMarkers`: sequentially `replaceAll` each stored marker. -/
def expandFileMarkers (text : Str) (store : FileMarkerStore) : Str :=
  store.foldl (fun result e => jsReplaceAll result e.1 e.2) text

/-! ## Source embedding: `generateHandoffPrompt` -/

/-- A content block of the LLM response (`response.content`). -/
inductive RespBlock where
  | text (t : Str)
  | otherBlock
deriving DecidableEq, Repr

/-- The model client's response as the generator inspects it.
`errorMessage` is `some` exactly when the response carries a string
`errorMessage` field (`"errorMessage" in response && typeof ... === "string"`). -/
structure LlmResponse where
  stopReason : Str
  errorMessage : Option Str
  content : List RespBlock
deriving DecidableEq, Repr

/-- How one run of the generator's model call resolves: the loader's abort
signal fired (`loader.onAbort → done(null)`), the call threw (the `catch`
normalizes the thrown value to a message via
`err instanceof Error ? err.message : String(err)`; `thrownMessage` is that
normalized message), or a response came back. -/
inductive CallOutcome where
  | abortedByLoader
  | threw (thrownMessage : Str)
  | completed (response : LlmResponse)
deriving DecidableEq, Repr

/-- The three-outcome result type of `generateHandoffPrompt`
(`{type:"prompt"} | {type:"error"} | null`). -/
inductive HandoffRes where
  | prompt (text : Str)
  | error (message : Str)
deriving DecidableEq, Repr

/-- The `.text` of the text blocks of a response, in order
(`content.filter(c => c.type === "text").map(c => c.text)`). -/
def textsOf (content : List RespBlock) : List Str :=
  content.foldr (fun b acc => match b with | RespBlock.text t => t :: acc | _ => acc) []

/-- `generateHandoffPrompt`: classify one model-call outcome into
`prompt | error | null` exactly as the source's `run`/`catch`/`onAbort` do.
The conversation text and goal only shape the request, not the
classification, so they are not parameters here. -/
def generateHandoffPrompt (o : CallOutcome) : Option HandoffRes :=
  match o with
  | CallOutcome.abortedByLoader => none
  | CallOutcome.threw m => some (HandoffRes.error m)
  | CallOutcome.completed r =>
    if r.stopReason = "aborted".toList then none
    else if r.stopReason = "error".toList then
      some (HandoffRes.error (r.errorMessage.getD "LLM request failed".toList))
    else
      let text := jsTrim (jsJoin "\n".toList (textsOf r.content))
      if text.length > 0 then some (HandoffRes.prompt text)
      else some (HandoffRes.error "LLM returned empty response".toList)

/-! ## Source embedding: the extension's shared registers and handlers

The extension closure owns four registers.  Each event handler is embedded
as a function from its inputs (the event payload plus the values the host
returns from the calls the handler makes) and the pre-state to the
post-state, a trace of the host-visible effects it performs in order, and
its return value.  External collaborators (`serializeConversation`,
`buildSessionContext`, `ui.select`, the model call) appear as inputs. -/

/-- The shared mutable registers of the extension closure. -/
structure ExtState where
  pendingHandoff : Option (Str × Option Str)
  handoffTimestamp : Option Int
  activeFileMarkers : FileMarkerStore
  pendingHandoffText : List (Str × Str)
deriving DecidableEq, Repr

/-- Host-visible effects a handler performs, in program order.
`assignTimestamp` records every write to the `handoffTimestamp` register so
that "immediately before the raw new-session call" is expressible. -/
inductive Eff where
  | assignTimestamp (v : Option Int)
  | rawNewSession (parentSession : Option Str)
  | privNewSession (parentSession : Option Str)
  | setEditorText (t : Str)
  | notify (t : Str)
  | deferredSetEditorText (t : Str)
  | selectDialog
deriving DecidableEq, Repr

/-- Map-like `get` on the `pendingHandoffText` association list. -/
def mapGet (m : List (Str × Str)) (k : Str) : Option Str :=
  match m.find? (fun e => e.1 = k) with
  | some e => some e.2
  | none => none

/-- Map-like `set`. -/
def mapSet (m : List (Str × Str)) (k v : Str) : List (Str × Str) :=
  if (m.find? (fun e => e.1 = k)).isSome then
    m.map (fun e => if e.1 = k then (k, v) else e)
  else m ++ [(k, v)]

/-- Map-like `delete`. -/
def mapDelete (m : List (Str × Str)) (k : Str) : List (Str × Str) :=
  m.filter (fun e => e.1 ≠ k)

/-- The `pi.on("session_switch")` handler.  It always clears
`handoffTimestamp` first; for a `reason = "new"` switch with UI it installs
any pending command-path prompt stored under the new session's parent. -/
def sessionSwitchHandler (reason : Str) (hasUI : Bool)
    (headerParentSession : Option Str) (s : ExtState) : ExtState × List Eff :=
  let s1 := { s with handoffTimestamp := none }
  let eff0 := [Eff.assignTimestamp none]
  if reason ≠ "new".toList ∨ hasUI = false then (s1, eff0)
  else
    match headerParentSession with
    | none => (s1, eff0)
    | some p =>
      if p = [] then (s1, eff0)
      else
        match mapGet s1.pendingHandoffText p with
        | some text =>
          if text = [] then (s1, eff0)
          else
            ({ s1 with pendingHandoffText := mapDelete s1.pendingHandoffText p },
             eff0 ++ [Eff.setEditorText text,
                      Eff.notify "Handoff ready".toList])
        | none => (s1, eff0)

/-- The `pi.on("agent_end")` handler.  `rawNewSessionFails` is whether the
raw `sessionManager.newSession` call throws; the source has no `try/catch`
here, so a throw propagates (`threw = true`) after `pendingHandoff` was
cleared and `handoffTimestamp` was set.  The deferred `setTimeout` callback
checks `ctx.hasUI` when it runs. -/
def agentEndHandler (now : Int) (hasUI : Bool) (rawNewSessionFails : Bool)
    (s : ExtState) : ExtState × List Eff × Bool :=
  match s.pendingHandoff with
  | none => (s, [], false)
  | some (prompt, parentSession) =>
    let s1 := { s with pendingHandoff := none, handoffTimestamp := some now }
    let effs := [Eff.assignTimestamp (some now), Eff.rawNewSession parentSession]
    if rawNewSessionFails then (s1, effs, true)
    else
      (s1,
       effs ++ (if hasUI then [Eff.deferredSetEditorText prompt,
                               Eff.notify "Handoff ready".toList] else []),
       false)

/-- The `pi.on("input")` handler: expand collapsed file markers on submit,
clearing the store after the first expansion; otherwise change nothing. -/
def inputHandler (text : Str) (s : ExtState) : ExtState × Option Str :=
  if s.activeFileMarkers.length = 0 then (s, none)
  else
    let hasMarkers := s.activeFileMarkers.any (fun e => jsIncludes text e.1)
    if !hasMarkers then (s, none)
    else
      let expanded := expandFileMarkers text s.activeFileMarkers
      ({ s with activeFileMarkers := [] }, some expanded)

/-- Inputs of the `session_before_compact` handler: the event payload, the
user's dialog choice, the serialized conversation the host prepared, and how
the external calls resolve. -/
structure CompactInputs where
  hasUI : Bool
  hasModel : Bool
  choice : Option Str
  previousSummary : Option Str
  messagesToSummarize : List MsgE
  conversationText : Str
  llm : CallOutcome
  currentSessionFile : Option Str
  fs : FS
  rawNewSessionFails : Bool
  now : Int

/-- The `pi.on("session_before_compact")` handler.  Returns the post-state,
the effect trace, and whether `{ cancel: true }` was returned. -/
def compactHandler (i : CompactInputs) (s : ExtState) : ExtState × List Eff × Bool :=
  if !i.hasUI || !i.hasModel then (s, [], false)
  else if i.choice = some "Compact context".toList ∨ i.choice = none then
    (s, [Eff.selectDialog], false)
  else if i.choice = some "Continue without either".toList then
    (s, [Eff.selectDialog], true)
  else
    let contextForHandoff :=
      (match i.previousSummary with
       | some ps =>
         if ps = [] then [] else
           "## Previous Context".toList ++ '\n' :: '\n' :: ps ++ ['\n', '\n']
       | none => []) ++
      "## Recent Conversation".toList ++ '\n' :: '\n' :: i.conversationText
    let _ := contextForHandoff
    match generateHandoffPrompt i.llm with
    | none =>
      (s, [Eff.selectDialog,
           Eff.notify "Handoff cancelled. Compacting instead.".toList], false)
    | some (HandoffRes.error m) =>
      (s, [Eff.selectDialog,
           Eff.notify ("Handoff failed: ".toList ++ m ++ ". Compacting instead.".toList)],
       false)
    | some (HandoffRes.prompt text) =>
      let fileOps := buildFileOperations i.messagesToSummarize
      let prompt1 :=
        match fileOps with
        | some fo => text ++ ['\n', '\n'] ++ fo.markers
        | none => text
      let prompt2 := wrapWithParentSession i.fs prompt1 i.currentSessionFile
      let s1 := { s with handoffTimestamp := some i.now }
      let effs0 := [Eff.selectDialog, Eff.assignTimestamp (some i.now),
                    Eff.rawNewSession i.currentSessionFile]
      if i.rawNewSessionFails then
        ({ s1 with handoffTimestamp := none },
         effs0 ++ [Eff.assignTimestamp none,
                   Eff.notify "Session switch failed".toList],
         false)
      else
        let s2 :=
          match fileOps with
          | some fo => { s1 with activeFileMarkers := fo.expansions }
          | none => s1
        (s2,
         effs0 ++ [Eff.setEditorText prompt2, Eff.notify "Handoff ready".toList],
         true)

/-- Inputs of the `handoff` tool's `execute`: the goal, the context guards,
the gathered conversation (`gatherConversation` returns the serialized text
and the raw messages, or `null` when the branch has no messages), and how the
model call resolves. -/
structure ToolInputs where
  goal : Str
  hasUI : Bool
  hasModel : Bool
  conv : Option (Str × List MsgE)
  llm : CallOutcome
  currentSessionFile : Option Str
  fs : FS

/-- The `handoff` tool's `execute`: returns the post-state and the text
content block handed back to the agent.  All mutations happen only after a
successful generation; the session switch itself is deferred to `agent_end`
via `pendingHandoff`. -/
def toolExecute (i : ToolInputs) (s : ExtState) : ExtState × Str :=
  if !i.hasUI then (s, "Handoff requires interactive mode.".toList)
  else if !i.hasModel then (s, "No model selected.".toList)
  else
    match i.conv with
    | none => (s, "No conversation to hand off.".toList)
    | some (_, messages) =>
      match generateHandoffPrompt i.llm with
      | none => (s, "Handoff cancelled.".toList)
      | some (HandoffRes.error m) =>
        (s, "Handoff failed: ".toList ++ m)
      | some (HandoffRes.prompt text) =>
        let fileOps := buildFileOperations messages
        let prompt1 :=
          match fileOps with
          | some fo => text ++ ['\n', '\n'] ++ fo.markers
          | none => text
        let prompt2 := wrapWithParentSession i.fs prompt1 i.currentSessionFile
        let s1 :=
          match fileOps with
          | some fo => { s with activeFileMarkers := fo.expansions }
          | none => s
        ({ s1 with pendingHandoff := some (prompt2, i.currentSessionFile) },
         "Handoff initiated. The session will switch after the current turn completes.".toList)

/-- Inputs of the `/handoff` command handler. -/
structure CommandInputs where
  args : Str
  hasModel : Bool
  conv : Option (Str × List MsgE)
  llm : CallOutcome
  currentSessionFile : Option Str
  fs : FS
  newSessionCancelled : Bool

/-- The `/handoff` command handler: generates, stores the prompt in
`pendingHandoffText` keyed by the parent (a truthy current session file),
creates the new session via the privileged `ctx.newSession`, and on
cancellation purges the stored entry; on success it activates the staged
markers.  It never writes `handoffTimestamp` or `pendingHandoff`. -/
def commandHandler (i : CommandInputs) (s : ExtState) : ExtState × List Eff :=
  let goal := jsTrim i.args
  if goal = [] then (s, [Eff.notify "Usage: /handoff <goal for new thread>".toList])
  else if !i.hasModel then (s, [Eff.notify "No model selected.".toList])
  else
    match i.conv with
    | none => (s, [Eff.notify "No conversation to hand off.".toList])
    | some (_, messages) =>
      match generateHandoffPrompt i.llm with
      | none => (s, [Eff.notify "Handoff cancelled.".toList])
      | some (HandoffRes.error m) =>
        (s, [Eff.notify ("Handoff failed: ".toList ++ m)])
      | some (HandoffRes.prompt text) =>
        let fileOps := buildFileOperations messages
        let prompt1 :=
          match fileOps with
          | some fo => text ++ ['\n', '\n'] ++ fo.markers
          | none => text
        let prompt2 := wrapWithParentSession i.fs prompt1 i.currentSessionFile
        let s1 :=
          match i.currentSessionFile with
          | some p =>
            if p = [] then s
            else { s with pendingHandoffText := mapSet s.pendingHandoffText p prompt2 }
          | none => s
        let effs := [Eff.privNewSession i.currentSessionFile]
        if i.newSessionCancelled then
          let s2 :=
            match i.currentSessionFile with
            | some p =>
              if p = [] then s1
              else { s1 with pendingHandoffText := mapDelete s1.pendingHandoffText p }
            | none => s1
          (s2, effs ++ [Eff.notify "New session cancelled.".toList])
        else
          match fileOps with
          | some fo => ({ s1 with activeFileMarkers := fo.expansions }, effs)
          | none => (s1, effs)

/-! ## C1: the context-event filter -/

/-- C1: For every context event, when `handoff_timestamp` holds `T` the
handler returns the message list restricted to `timestamp >= T` (so no
message with `timestamp < T` is retained), and when that restriction would
be empty it returns no modifier; when `handoff_timestamp` is null the
handler always passes through unchanged. -/
theorem contextFilter_conservative :
    (∀ messages, contextHandler none messages = none) ∧
    (∀ (T : Int) messages l, contextHandler (some T) messages = some l →
      l = messages.filter (fun m => T ≤ m.timestamp) ∧ ∀ m ∈ l, T ≤ m.timestamp) ∧
    (∀ (T : Int) messages, contextHandler (some T) messages = none ↔
      messages.filter (fun m => T ≤ m.timestamp) = []) := by
  refine ⟨fun messages => rfl, ?_, ?_⟩
  · intro T messages l h
    simp only [contextHandler] at h
    split at h
    · cases h
      refine ⟨rfl, ?_⟩
      intro m hm
      exact of_decide_eq_true (List.mem_filter.mp hm).2
    · cases h
  · intro T messages
    simp only [contextHandler]
    constructor
    · intro h
      split at h
      · cases h
      · rename_i hlen
        simp only [gt_iff_lt, not_lt, Nat.le_zero, List.length_eq_zero] at hlen
        exact hlen
    · intro h
      simp [h]

/-- Witness for C1 at a concrete event: `T = 5`, one stale and one fresh
message; the fresh message alone is retained. -/
theorem contextFilter_conservative_witness :
    [CtxMsg.mk 7 1] = List.filter (fun m => decide ((5:Int) ≤ m.timestamp))
        [CtxMsg.mk 3 0, CtxMsg.mk 7 1] ∧
      ∀ m ∈ [CtxMsg.mk 7 1], (5:Int) ≤ m.timestamp :=
  contextFilter_conservative.2.1 5 [CtxMsg.mk 3 0, CtxMsg.mk 7 1] [CtxMsg.mk 7 1] (by decide)

/-! ## C3: the summary generator's outcome taxonomy -/

/-- C3: `generateHandoffPrompt` returns exactly one of three outcomes:
`null` when the call is aborted via the loader's signal (or the response
says `aborted`); an error outcome whose message is `response.errorMessage`
(or `"LLM request failed"` when absent) on `stopReason == "error"`, or
`"LLM returned empty response"` when the trimmed concatenation of text
blocks is empty, or the thrown error's message on an exception; otherwise a
prompt outcome whose text is the non-empty trimmed concatenation of the
text blocks joined by newlines. -/
theorem summaryGenerator_outcomes :
    (generateHandoffPrompt CallOutcome.abortedByLoader = none) ∧
    (∀ r, r.stopReason = "aborted".toList →
      generateHandoffPrompt (CallOutcome.completed r) = none) ∧
    (∀ r m, r.stopReason = "error".toList → r.errorMessage = some m →
      generateHandoffPrompt (CallOutcome.completed r) = some (HandoffRes.error m)) ∧
    (∀ r, r.stopReason = "error".toList → r.errorMessage = none →
      generateHandoffPrompt (CallOutcome.completed r) =
        some (HandoffRes.error "LLM request failed".toList)) ∧
    (∀ m, generateHandoffPrompt (CallOutcome.threw m) = some (HandoffRes.error m)) ∧
    (∀ r, r.stopReason ≠ "aborted".toList → r.stopReason ≠ "error".toList →
      (jsTrim (jsJoin "\n".toList (textsOf r.content)) = [] →
        generateHandoffPrompt (CallOutcome.completed r) =
          some (HandoffRes.error "LLM returned empty response".toList)) ∧
      (jsTrim (jsJoin "\n".toList (textsOf r.content)) ≠ [] →
        generateHandoffPrompt (CallOutcome.completed r) =
          some (HandoffRes.prompt (jsTrim (jsJoin "\n".toList (textsOf r.content)))))) := by
  refine ⟨rfl, ?_, ?_, ?_, fun m => rfl, ?_⟩
  · intro r h
    simp [generateHandoffPrompt, h]
  · intro r m h hm
    simp only [generateHandoffPrompt]
    rw [if_neg (by rw [h]; decide), if_pos h, hm]
    rfl
  · intro r h hm
    simp only [generateHandoffPrompt]
    rw [if_neg (by rw [h]; decide), if_pos h, hm]
    rfl
  · intro r h1 h2
    constructor
    · intro he
      simp only [generateHandoffPrompt]
      rw [if_neg h1, if_neg h2, he]
      rfl
    · intro hne
      have hpos : 0 < (jsTrim (jsJoin "\n".toList (textsOf r.content))).length :=
        List.length_pos.mpr hne
      simp only [generateHandoffPrompt]
      rw [if_neg h1, if_neg h2, if_pos hpos]

/-- Witness for C3: a concrete `stopReason = "error"` response with an
`errorMessage` maps to that error message. -/
theorem summaryGenerator_outcomes_witness :
    generateHandoffPrompt
        (CallOutcome.completed ⟨"error".toList, some "boom".toList, []⟩) =
      some (HandoffRes.error "boom".toList) :=
  summaryGenerator_outcomes.2.2.1 ⟨"error".toList, some "boom".toList, []⟩
    "boom".toList rfl rfl

/-! ## C6: file-operation normalization -/

theorem mem_setAdd {l : List Str} {x y : Str} : x ∈ setAdd l y ↔ x ∈ l ∨ x = y := by
  unfold setAdd
  split
  · rename_i hy
    constructor
    · exact Or.inl
    · rintro (h | rfl)
      · exact h
      · exact hy
  · simp [or_comm]

theorem mem_foldl_setAdd (xs : List Str) (l0 : List Str) (x : Str) :
    x ∈ xs.foldl setAdd l0 ↔ x ∈ l0 ∨ x ∈ xs := by
  induction xs generalizing l0 with
  | nil => simp
  | cons y ys ih =>
    simp only [List.foldl_cons, ih, mem_setAdd, List.mem_cons]
    tauto

theorem mem_modifiedSetOf (messages : List MsgE) (p : Str) :
    p ∈ modifiedSetOf messages ↔
      p ∈ (fileOpsOf messages).edited ∨ p ∈ (fileOpsOf messages).written := by
  unfold modifiedSetOf
  rw [mem_foldl_setAdd]
  simp

theorem mem_modifiedFilesOf (messages : List MsgE) (p : Str) :
    p ∈ modifiedFilesOf messages ↔
      p ∈ (fileOpsOf messages).edited ∨ p ∈ (fileOpsOf messages).written := by
  unfold modifiedFilesOf
  rw [(List.perm_insertionSort (· ≤ ·) (modifiedSetOf messages)).mem_iff]
  exact mem_modifiedSetOf messages p

theorem mem_readFilesOf (messages : List MsgE) (p : Str) :
    p ∈ readFilesOf messages ↔
      p ∈ (fileOpsOf messages).read ∧ p ∉ modifiedSetOf messages := by
  unfold readFilesOf
  rw [(List.perm_insertionSort (· ≤ ·) _).mem_iff]
  simp [List.mem_filter]

/-- C6: for every message list the extractor's two output groups satisfy
`modified = written ∪ edited`, `read_only = read \ modified` (so the groups
are disjoint), both are sorted lexicographically, and the result is `null`
exactly when both groups are empty. -/
theorem fileOps_normalization (messages : List MsgE) :
    (∀ p, p ∈ modifiedFilesOf messages ↔
      (p ∈ (fileOpsOf messages).written ∨ p ∈ (fileOpsOf messages).edited)) ∧
    (∀ p, p ∈ readFilesOf messages ↔
      (p ∈ (fileOpsOf messages).read ∧ p ∉ modifiedFilesOf messages)) ∧
    (∀ p, ¬(p ∈ readFilesOf messages ∧ p ∈ modifiedFilesOf messages)) ∧
    List.Sorted (· ≤ ·) (readFilesOf messages) ∧
    List.Sorted (· ≤ ·) (modifiedFilesOf messages) ∧
    (buildFileOperations messages = none ↔
      (readFilesOf messages = [] ∧ modifiedFilesOf messages = [])) := by
  have hmod : ∀ p, p ∈ modifiedFilesOf messages ↔ p ∈ modifiedSetOf messages := by
    intro p
    rw [mem_modifiedFilesOf, mem_modifiedSetOf]
  refine ⟨?_, ?_, ?_, ?_, ?_, ?_⟩
  · intro p
    rw [mem_modifiedFilesOf]
    exact or_comm
  · intro p
    rw [mem_readFilesOf]
    constructor
    · rintro ⟨h1, h2⟩
      exact ⟨h1, fun hc => h2 ((hmod p).mp hc)⟩
    · rintro ⟨h1, h2⟩
      exact ⟨h1, fun hc => h2 ((hmod p).mpr hc)⟩
  · intro p hc
    exact ((mem_readFilesOf messages p).mp hc.1).2 ((hmod p).mp hc.2)
  · exact List.sorted_insertionSort _ _
  · exact List.sorted_insertionSort _ _
  · constructor
    · intro h
      by_cases hc : readFilesOf messages = [] ∧ modifiedFilesOf messages = []
      · exact hc
      · exfalso
        simp only [buildFileOperations] at h
        rw [if_neg hc] at h
        exact Option.some_ne_none _ h
    · intro h
      simp [buildFileOperations, h.1, h.2]

/-- Witness for C6: on an empty message list both groups are empty and the
builder returns `null`. -/
theorem fileOps_normalization_witness :
    buildFileOperations [] = none :=
  (fileOps_normalization []).2.2.2.2.2.mpr ⟨rfl, rfl⟩

/-! ## C9: tool-path failures leave the shared registers untouched -/

/-- C9: whenever the handoff tool's `execute` takes a failure path (no UI,
no model, empty conversation, or the generator returned cancelled/error),
the returned text is one of the failure texts, no shared register is
mutated, and a subsequent `agent_end` (with `pendingHandoff` still null) is
a no-op: same state, no effects, no session switch. -/
theorem toolFailure_preserves_state (i : ToolInputs) (s : ExtState)
    (now : Int) (hasUI rawFails : Bool)
    (hpend : s.pendingHandoff = none)
    (hfail : i.hasUI = false ∨ i.hasModel = false ∨ i.conv = none ∨
      generateHandoffPrompt i.llm = none ∨
      (∃ m, generateHandoffPrompt i.llm = some (HandoffRes.error m))) :
    (toolExecute i s).1 = s ∧
    ((toolExecute i s).2 = "Handoff requires interactive mode.".toList ∨
     (toolExecute i s).2 = "No model selected.".toList ∨
     (toolExecute i s).2 = "No conversation to hand off.".toList ∨
     (toolExecute i s).2 = "Handoff cancelled.".toList ∨
     (∃ m, (toolExecute i s).2 = "Handoff failed: ".toList ++ m)) ∧
    agentEndHandler now hasUI rawFails (toolExecute i s).1 = (s, [], false) := by
  have key : (toolExecute i s).1 = s ∧
      ((toolExecute i s).2 = "Handoff requires interactive mode.".toList ∨
       (toolExecute i s).2 = "No model selected.".toList ∨
       (toolExecute i s).2 = "No conversation to hand off.".toList ∨
       (toolExecute i s).2 = "Handoff cancelled.".toList ∨
       (∃ m, (toolExecute i s).2 = "Handoff failed: ".toList ++ m)) := by
    cases hu : i.hasUI with
    | false =>
      simp [toolExecute, hu]
    | true =>
      cases hm : i.hasModel with
      | false => simp [toolExecute, hu, hm]
      | true =>
        cases hconv : i.conv with
        | none => simp [toolExecute, hu, hm, hconv]
        | some cm =>
          cases hgen : generateHandoffPrompt i.llm with
          | none => simp [toolExecute, hu, hm, hconv, hgen]
          | some res =>
            cases res with
            | error m =>
              refine ⟨?_, Or.inr (Or.inr (Or.inr (Or.inr ⟨m, ?_⟩)))⟩ <;>
                simp [toolExecute, hu, hm, hconv, hgen]
            | prompt t =>
              exfalso
              rcases hfail with h | h | h | h | ⟨m, h⟩ <;>
                first
                  | exact absurd hu (by rw [h]; decide)
                  | exact absurd hm (by rw [h]; decide)
                  | exact absurd h (by rw [hconv]; exact Option.some_ne_none cm)
                  | exact absurd h (by rw [hgen]; exact Option.some_ne_none _)
                  | exact absurd h (by rw [hgen]; intro hx; cases hx)
  refine ⟨key.1, key.2, ?_⟩
  rw [key.1]
  unfold agentEndHandler
  rw [hpend]

/-- Witness for C9: a concrete failing tool call (no model selected) on the
empty state changes nothing and the following `agent_end` is a no-op. -/
theorem toolFailure_preserves_state_witness :
    (toolExecute ⟨"g".toList, true, false, none, CallOutcome.abortedByLoader, none, []⟩
        ⟨none, none, [], []⟩).1 = ⟨none, none, [], []⟩ ∧
    ((toolExecute ⟨"g".toList, true, false, none, CallOutcome.abortedByLoader, none, []⟩
        ⟨none, none, [], []⟩).2 = "Handoff requires interactive mode.".toList ∨
     (toolExecute ⟨"g".toList, true, false, none, CallOutcome.abortedByLoader, none, []⟩
        ⟨none, none, [], []⟩).2 = "No model selected.".toList ∨
     (toolExecute ⟨"g".toList, true, false, none, CallOutcome.abortedByLoader, none, []⟩
        ⟨none, none, [], []⟩).2 = "No conversation to hand off.".toList ∨
     (toolExecute ⟨"g".toList, true, false, none, CallOutcome.abortedByLoader, none, []⟩
        ⟨none, none, [], []⟩).2 = "Handoff cancelled.".toList ∨
     (∃ m, (toolExecute ⟨"g".toList, true, false, none, CallOutcome.abortedByLoader, none, []⟩
        ⟨none, none, [], []⟩).2 = "Handoff failed: ".toList ++ m)) ∧
    agentEndHandler 7 true false
        (toolExecute ⟨"g".toList, true, false, none, CallOutcome.abortedByLoader, none, []⟩
          ⟨none, none, [], []⟩).1 = (⟨none, none, [], []⟩, [], false) :=
  toolFailure_preserves_state
    ⟨"g".toList, true, false, none, CallOutcome.abortedByLoader, none, []⟩
    ⟨none, none, [], []⟩ 7 true false rfl (Or.inr (Or.inl rfl))

/-! ## C2: transitions of the `handoffTimestamp` register -/

theorem sessionSwitch_clears_timestamp (reason : Str) (hasUI : Bool)
    (hp : Option Str) (s : ExtState) :
    ((sessionSwitchHandler reason hasUI hp s).1).handoffTimestamp = none := by
  unfold sessionSwitchHandler
  dsimp only
  repeat' split
  all_goals rfl

theorem inputHandler_preserves_timestamp (text : Str) (s : ExtState) :
    ((inputHandler text s).1).handoffTimestamp = s.handoffTimestamp := by
  unfold inputHandler
  dsimp only
  repeat' split
  all_goals rfl

theorem toolExecute_preserves_timestamp (i : ToolInputs) (s : ExtState) :
    ((toolExecute i s).1).handoffTimestamp = s.handoffTimestamp := by
  unfold toolExecute
  dsimp only
  repeat' split
  all_goals rfl

theorem commandHandler_preserves_timestamp (i : CommandInputs) (s : ExtState) :
    ((commandHandler i s).1).handoffTimestamp = s.handoffTimestamp := by
  unfold commandHandler
  dsimp only
  repeat' split
  all_goals rfl

theorem agentEnd_noop_of_no_pending (now : Int) (hasUI rawFails : Bool)
    (s : ExtState) (h : s.pendingHandoff = none) :
    agentEndHandler now hasUI rawFails s = (s, [], false) := by
  unfold agentEndHandler
  rw [h]

theorem agentEnd_sets_timestamp_before_raw_call (now : Int) (hasUI rawFails : Bool)
    (s : ExtState) (pr : Str) (pa : Option Str) (h : s.pendingHandoff = some (pr, pa)) :
    ((agentEndHandler now hasUI rawFails s).1).handoffTimestamp = some now ∧
    ((agentEndHandler now hasUI rawFails s).1).pendingHandoff = none ∧
    (agentEndHandler now hasUI rawFails s).2.1.get? 0 =
      some (Eff.assignTimestamp (some now)) ∧
    (agentEndHandler now hasUI rawFails s).2.1.get? 1 = some (Eff.rawNewSession pa) ∧
    (agentEndHandler now hasUI rawFails s).2.2 = rawFails := by
  unfold agentEndHandler
  rw [h]
  dsimp only
  cases rawFails <;> simp

theorem compact_early_preserves_timestamp (i : CompactInputs) (s : ExtState)
    (h : (¬(i.hasUI = true ∧ i.hasModel = true)) ∨
      i.choice = some "Compact context".toList ∨ i.choice = none ∨
      i.choice = some "Continue without either".toList ∨
      generateHandoffPrompt i.llm = none ∨
      (∃ m, generateHandoffPrompt i.llm = some (HandoffRes.error m))) :
    ((compactHandler i s).1).handoffTimestamp = s.handoffTimestamp := by
  by_cases hguard : (!i.hasUI || !i.hasModel) = true
  · unfold compactHandler
    rw [if_pos hguard]
  · unfold compactHandler
    rw [if_neg hguard]
    by_cases hch1 : i.choice = some "Compact context".toList ∨ i.choice = none
    · rw [if_pos hch1]
    · rw [if_neg hch1]
      by_cases hch2 : i.choice = some "Continue without either".toList
      · rw [if_pos hch2]
      · rw [if_neg hch2]
        have hne : i.hasUI = true ∧ i.hasModel = true := by
          constructor
          · cases hu : i.hasUI
            · rw [hu] at hguard
              simp at hguard
            · rfl
          · cases hm : i.hasModel
            · rw [hm] at hguard
              simp at hguard
            · rfl
        rcases h with h | h | h | h | h | ⟨m, h⟩
        · exact absurd hne h
        · exact absurd (Or.inl h) hch1
        · exact absurd (Or.inr h) hch1
        · exact absurd h hch2
        · rw [h]
        · rw [h]

theorem compact_success_timestamp (i : CompactInputs) (s : ExtState) (t : Str)
    (hu : i.hasUI = true) (hm : i.hasModel = true)
    (hc1 : i.choice ≠ some "Compact context".toList) (hc2 : i.choice ≠ none)
    (hc3 : i.choice ≠ some "Continue without either".toList)
    (hgen : generateHandoffPrompt i.llm = some (HandoffRes.prompt t)) :
    (compactHandler i s).2.1.get? 1 = some (Eff.assignTimestamp (some i.now)) ∧
    (compactHandler i s).2.1.get? 2 = some (Eff.rawNewSession i.currentSessionFile) ∧
    (i.rawNewSessionFails = true →
      ((compactHandler i s).1).handoffTimestamp = none) ∧
    (i.rawNewSessionFails = false →
      ((compactHandler i s).1).handoffTimestamp = some i.now ∧
      (compactHandler i s).2.2 = true) := by
  unfold compactHandler
  rw [if_neg (by simp [hu, hm]), if_neg (by tauto), if_neg hc3, hgen]
  dsimp only
  cases hfails : i.rawNewSessionFails with
  | true =>
    rw [if_pos rfl]
    refine ⟨rfl, rfl, ?_, ?_⟩
    · intro _
      rfl
    · intro hx
      cases hx
  | false =>
    rw [if_neg (by simp)]
    refine ⟨rfl, rfl, ?_, ?_⟩
    · intro hx
      cases hx
    · intro _
      constructor
      · cases buildFileOperations i.messagesToSummarize <;> rfl
      · cases buildFileOperations i.messagesToSummarize <;> rfl

/-- C2 (amended): the `handoffTimestamp` register transitions to null on
every `session_switch` event; it transitions to set only at the `agent_end`
drain of a pending tool handoff and on the compact-hook success path, in
each case immediately before the raw new-session call; the compact hook
reverts it to null when its raw new-session call fails, while a failing raw
call in the `agent_end` drain performs no revert (the timestamp stays set
and the exception propagates).  The input, tool-execute and command
handlers never write the register. -/
theorem handoffTimestamp_transitions :
    (∀ reason hasUI hp s,
      ((sessionSwitchHandler reason hasUI hp s).1).handoffTimestamp = none) ∧
    (∀ text s, ((inputHandler text s).1).handoffTimestamp = s.handoffTimestamp) ∧
    (∀ i s, ((toolExecute i s).1).handoffTimestamp = s.handoffTimestamp) ∧
    (∀ i s, ((commandHandler i s).1).handoffTimestamp = s.handoffTimestamp) ∧
    (∀ now hasUI rawFails s, s.pendingHandoff = none →
      agentEndHandler now hasUI rawFails s = (s, [], false)) ∧
    (∀ now hasUI rawFails s pr pa, s.pendingHandoff = some (pr, pa) →
      ((agentEndHandler now hasUI rawFails s).1).handoffTimestamp = some now ∧
      (agentEndHandler now hasUI rawFails s).2.1.get? 0 =
        some (Eff.assignTimestamp (some now)) ∧
      (agentEndHandler now hasUI rawFails s).2.1.get? 1 =
        some (Eff.rawNewSession pa)) ∧
    (∀ i s, ((¬(i.hasUI = true ∧ i.hasModel = true)) ∨
        i.choice = some "Compact context".toList ∨ i.choice = none ∨
        i.choice = some "Continue without either".toList ∨
        generateHandoffPrompt i.llm = none ∨
        (∃ m, generateHandoffPrompt i.llm = some (HandoffRes.error m))) →
      ((compactHandler i s).1).handoffTimestamp = s.handoffTimestamp) ∧
    (∀ i s t, i.hasUI = true → i.hasModel = true →
      i.choice ≠ some "Compact context".toList → i.choice ≠ none →
      i.choice ≠ some "Continue without either".toList →
      generateHandoffPrompt i.llm = some (HandoffRes.prompt t) →
      (compactHandler i s).2.1.get? 1 = some (Eff.assignTimestamp (some i.now)) ∧
      (compactHandler i s).2.1.get? 2 = some (Eff.rawNewSession i.currentSessionFile) ∧
      (i.rawNewSessionFails = true →
        ((compactHandler i s).1).handoffTimestamp = none) ∧
      (i.rawNewSessionFails = false →
        ((compactHandler i s).1).handoffTimestamp = some i.now ∧
        (compactHandler i s).2.2 = true)) :=
  ⟨sessionSwitch_clears_timestamp, inputHandler_preserves_timestamp,
   toolExecute_preserves_timestamp, commandHandler_preserves_timestamp,
   agentEnd_noop_of_no_pending,
   fun now hasUI rawFails s pr pa h => by
     have k := agentEnd_sets_timestamp_before_raw_call now hasUI rawFails s pr pa h
     exact ⟨k.1, k.2.2.1, k.2.2.2.1⟩,
   compact_early_preserves_timestamp,
   compact_success_timestamp⟩

/-- Witness for C2 (amended): a concrete `agent_end` drain with a pending
handoff sets the timestamp immediately before the raw new-session call. -/
theorem handoffTimestamp_transitions_witness :
    ((agentEndHandler 100 true false
        ⟨some ("p".toList, some "a".toList), none, [], []⟩).1).handoffTimestamp =
      some 100 ∧
    (agentEndHandler 100 true false
        ⟨some ("p".toList, some "a".toList), none, [], []⟩).2.1.get? 0 =
      some (Eff.assignTimestamp (some 100)) ∧
    (agentEndHandler 100 true false
        ⟨some ("p".toList, some "a".toList), none, [], []⟩).2.1.get? 1 =
      some (Eff.rawNewSession (some "a".toList)) :=
  handoffTimestamp_transitions.2.2.2.2.2.1 100 true false
    ⟨some ("p".toList, some "a".toList), none, [], []⟩ "p".toList (some "a".toList) rfl

/-- Counterexample for C2 as stated: the claim says the register is reverted
to null on every raw new-session call that fails, but the `agent_end` drain
has no `try/catch`: when its raw call throws, the handler aborts with the
timestamp still set. -/
theorem handoffTimestamp_no_revert_counterexample :
    ((agentEndHandler 100 true true
        ⟨some ("p".toList, some "a".toList), none, [], []⟩).1).handoffTimestamp =
      some 100 ∧
    (agentEndHandler 100 true true
        ⟨some ("p".toList, some "a".toList), none, [], []⟩).2.2 = true ∧
    ¬((agentEndHandler 100 true true
        ⟨some ("p".toList, some "a".toList), none, [], []⟩).1).handoffTimestamp = none := by
  refine ⟨rfl, rfl, ?_⟩
  intro h
  cases h

/-! ## String-occurrence lemmas -/

theorem isPrefixOf_true_iff : ∀ (p s : Str), p.isPrefixOf s = true ↔ LeadsIn p s := by
  intro p
  induction p with
  | nil =>
    intro s
    constructor
    · intro _
      exact ⟨s, rfl⟩
    · intro _
      cases s <;> rfl
  | cons c cs ih =>
    intro s
    cases s with
    | nil =>
      constructor
      · intro h
        cases h
      · rintro ⟨t, ht⟩
        cases ht
    | cons d t =>
      simp only [List.isPrefixOf_cons₂]
      constructor
      · intro h
        have hcd : c = d := by
          have := (Bool.and_eq_true _ _).mp h
          exact eq_of_beq this.1
        obtain ⟨u, hu⟩ := (ih t).mp ((Bool.and_eq_true _ _).mp h).2
        exact ⟨u, by rw [hcd, List.cons_append, hu]⟩
      · rintro ⟨u, hu⟩
        rw [List.cons_append] at hu
        injection hu with h1 h2
        refine (Bool.and_eq_true _ _).mpr ⟨?_, (ih t).mpr ⟨u, h2⟩⟩
        rw [h1]
        exact beq_self_eq_true d

theorem occursIn_subset {p s : Str} (h : OccursIn p s) : ∀ c ∈ p, c ∈ s := by
  obtain ⟨u, v, rfl⟩ := h
  intro c hc
  simp [hc]

theorem occursIn_cons_elim {p : Str} {c : Char} {s : Str} (h : OccursIn p (c :: s)) :
    LeadsIn p (c :: s) ∨ OccursIn p s := by
  obtain ⟨u, v, huv⟩ := h
  cases u with
  | nil => exact Or.inl ⟨v, huv.symm⟩
  | cons d u2 =>
    injection huv with h1 h2
    exact Or.inr ⟨u2, v, h2⟩

theorem occursIn_of_occursIn_tail {p : Str} {c : Char} {s : Str} (h : OccursIn p s) :
    OccursIn p (c :: s) := by
  obtain ⟨u, v, rfl⟩ := h
  exact ⟨c :: u, v, rfl⟩

theorem occursIn_of_leadsIn {p s : Str} (h : LeadsIn p s) : OccursIn p s := by
  obtain ⟨t, ht⟩ := h
  exact ⟨[], t, ht.symm⟩

theorem not_occursIn_nil {p : Str} (hp : p ≠ []) : ¬ OccursIn p [] := by
  rintro ⟨u, v, huv⟩
  cases u with
  | nil =>
    cases p with
    | nil => exact hp rfl
    | cons c cs => cases huv
  | cons c cs => cases huv

/-- A prefix of `a ++ '\n' :: b` that avoids `'\n'` is a prefix of `a`. -/
theorem leadsIn_of_leadsIn_append_nl {p a b : Str} (h : LeadsIn p (a ++ '\n' :: b))
    (hnl : '\n' ∉ p) : LeadsIn p a := by
  obtain ⟨t, ht⟩ := h
  by_cases hlen : p.length ≤ a.length
  · have hp : p = (a ++ '\n' :: b).take p.length := by
      rw [← ht]
      simp
    have h2 : (a ++ '\n' :: b).take p.length = a.take p.length := by
      rw [List.take_append_eq_append_take, Nat.sub_eq_zero_of_le hlen]
      simp
    have hpa : p = a.take p.length := hp.trans h2
    refine ⟨a.drop p.length, ?_⟩
    have h3 : a.take p.length ++ a.drop p.length = a := List.take_append_drop _ _
    rw [← hpa] at h3
    exact h3
  · exfalso
    apply hnl
    push_neg at hlen
    have hlt : a.length < (p ++ t).length := by
      simp only [List.length_append]
      omega
    have h1 : (p ++ t).get ⟨a.length, hlt⟩ = p.get ⟨a.length, hlen⟩ := by
      simp only [List.get_eq_getElem]
      exact List.getElem_append_left hlen
    have h2 : ∀ (hh : a.length < (a ++ '\n' :: b).length),
        (a ++ '\n' :: b).get ⟨a.length, hh⟩ = '\n' := by
      intro hh
      simp only [List.get_eq_getElem]
      rw [List.getElem_append_right (Nat.le_refl _)]
      simp
    have h4 : p.get ⟨a.length, hlen⟩ = '\n' := by
      rw [← h1, List.get_of_eq ht ⟨a.length, hlt⟩]
      exact h2 _
    rw [← h4]
    exact List.get_mem _ _ _

/-- An occurrence cannot cross a `'\n'` separator the pattern does not
contain. -/
theorem not_occursIn_append_nl {p a b : Str} (ha : ¬ OccursIn p a)
    (hb : ¬ OccursIn p b) (hnl : '\n' ∉ p) (hp : p ≠ []) :
    ¬ OccursIn p (a ++ '\n' :: b) := by
  induction a with
  | nil =>
    intro h
    rcases occursIn_cons_elim h with hlead | hocc
    · obtain ⟨t, ht⟩ := hlead
      cases p with
      | nil => exact hp rfl
      | cons c cs =>
        injection ht with h1 _
        exact hnl (by rw [h1]; exact List.mem_cons_self _ _)
    · exact hb hocc
  | cons c a2 ih =>
    intro h
    rw [List.cons_append] at h
    rcases occursIn_cons_elim h with hlead | hocc
    · have : LeadsIn p (c :: a2) := by
        have := leadsIn_of_leadsIn_append_nl (a := c :: a2) (b := b) ?_ hnl
        · exact this
        · rw [List.cons_append]
          exact hlead
      exact ha (occursIn_of_leadsIn this)
    · exact ih (fun hx => ha (occursIn_of_occursIn_tail hx)) hocc

/-! ## `replaceAll` lemmas -/

theorem replaceAllGo_self {p : Char} {ps rep : Str} :
    ∀ (fuel : Nat) (s : Str), ¬ OccursIn (p :: ps) s →
      replaceAllGo p ps rep fuel s = s := by
  intro fuel
  induction fuel with
  | zero =>
    intro s _
    rfl
  | succ n ih =>
    intro s hs
    cases s with
    | nil => rfl
    | cons c rest =>
      have hnp : (p :: ps).isPrefixOf (c :: rest) = false := by
        cases hb : (p :: ps).isPrefixOf (c :: rest)
        · rfl
        · exact absurd (occursIn_of_leadsIn ((isPrefixOf_true_iff _ _).mp hb)) hs
      simp only [replaceAllGo, hnp, Bool.false_eq_true, if_false]
      rw [ih rest (fun hx => hs (occursIn_of_occursIn_tail hx))]

theorem replaceAllGo_head_match {p : Char} {ps rep : Str} (fuel : Nat) (rest : Str) :
    replaceAllGo p ps rep (fuel + 1) ((p :: ps) ++ rest) =
      rep ++ replaceAllGo p ps rep fuel rest := by
  have hpre : (p :: ps).isPrefixOf (p :: (ps ++ rest)) = true :=
    (isPrefixOf_true_iff _ _).mpr ⟨rest, rfl⟩
  rw [List.cons_append]
  simp only [replaceAllGo, hpre, if_true, List.drop_left]

theorem replaceAllGo_append_nl {p : Char} {ps rep : Str}
    (hnl : '\n' ∉ (p :: ps)) :
    ∀ (a : Str) (b : Str) (fuel : Nat), ¬ OccursIn (p :: ps) a →
      replaceAllGo p ps rep (a.length + 1 + fuel) (a ++ '\n' :: b) =
        a ++ '\n' :: replaceAllGo p ps rep fuel b := by
  intro a
  induction a with
  | nil =>
    intro b fuel _
    have hnp : (p :: ps).isPrefixOf ('\n' :: b) = false := by
      cases hb : (p :: ps).isPrefixOf ('\n' :: b)
      · rfl
      · obtain ⟨t, ht⟩ := (isPrefixOf_true_iff _ _).mp hb
        injection ht with h1 _
        exact absurd (by rw [h1]; exact List.mem_cons_self _ _) hnl
    have harith : ([] : Str).length + 1 + fuel = fuel + 1 := by
      simp [Nat.add_comm]
    rw [harith]
    simp only [List.nil_append, replaceAllGo, hnp, Bool.false_eq_true, if_false]
  | cons c a2 ih =>
    intro b fuel ha
    have hnp : (p :: ps).isPrefixOf (c :: (a2 ++ '\n' :: b)) = false := by
      cases hb : (p :: ps).isPrefixOf (c :: (a2 ++ '\n' :: b))
      · rfl
      · exfalso
        have hlead : LeadsIn (p :: ps) ((c :: a2) ++ '\n' :: b) := by
          rw [List.cons_append]
          exact (isPrefixOf_true_iff _ _).mp hb
        exact ha (occursIn_of_leadsIn (leadsIn_of_leadsIn_append_nl hlead hnl))
    have harith : (c :: a2).length + 1 + fuel = (a2.length + 1 + fuel) + 1 := by
      simp [List.length_cons]
      omega
    rw [harith, List.cons_append]
    simp only [replaceAllGo, hnp, Bool.false_eq_true, if_false]
    rw [ih b fuel (fun hx => ha (occursIn_of_occursIn_tail hx))]
    rw [List.cons_append]

theorem jsReplaceAll_of_not_occurs {s pat rep : Str} (h : ¬ OccursIn pat s)
    (hp : pat ≠ []) : jsReplaceAll s pat rep = s := by
  cases pat with
  | nil => exact absurd rfl hp
  | cons p ps => exact replaceAllGo_self _ s h

theorem jsReplaceAll_exact {pat rep : Str} (hp : pat ≠ []) :
    jsReplaceAll pat pat rep = rep := by
  cases pat with
  | nil => exact absurd rfl hp
  | cons p ps =>
    show replaceAllGo p ps rep (ps.length + 1 + 1) (p :: ps) = rep
    have h0 : replaceAllGo p ps rep (ps.length + 1 + 1) ((p :: ps) ++ []) =
        rep ++ replaceAllGo p ps rep (ps.length + 1) [] :=
      replaceAllGo_head_match (ps.length + 1) []
    rw [List.append_nil] at h0
    rw [h0]
    simp [replaceAllGo]

theorem jsReplaceAll_first_marker {pat rep suffix : Str} (hp : pat ≠ [])
    (h : ¬ OccursIn pat ('\n' :: suffix)) :
    jsReplaceAll (pat ++ '\n' :: suffix) pat rep = rep ++ '\n' :: suffix := by
  cases pat with
  | nil => exact absurd rfl hp
  | cons p ps =>
    show replaceAllGo p ps rep (((p :: ps) ++ '\n' :: suffix).length + 1) _ = _
    have harith : ((p :: ps) ++ '\n' :: suffix).length + 1 =
        (ps.length + suffix.length + 2) + 1 := by
      simp [List.length_append, List.length_cons]
      omega
    rw [harith, replaceAllGo_head_match]
    rw [replaceAllGo_self _ _ h]

theorem jsReplaceAll_second_marker {a pat rep : Str} (hp : pat ≠ [])
    (hnl : '\n' ∉ pat) (ha : ¬ OccursIn pat a) :
    jsReplaceAll (a ++ '\n' :: pat) pat rep = a ++ '\n' :: rep := by
  cases pat with
  | nil => exact absurd rfl hp
  | cons p ps =>
    show replaceAllGo p ps rep ((a ++ '\n' :: (p :: ps)).length + 1) _ = _
    have harith : (a ++ '\n' :: (p :: ps)).length + 1 =
        a.length + 1 + ((p :: ps).length + 1) := by
      simp [List.length_append, List.length_cons]
      omega
    rw [harith, replaceAllGo_append_nl hnl a _ _ ha]
    congr 2
    exact jsReplaceAll_exact hp

/-! ## `splitNl` and `jsJoin` lemmas -/

theorem splitNl_ne_nil : ∀ (s : Str), splitNl s ≠ [] := by
  intro s
  cases s with
  | nil => simp [splitNl]
  | cons c rest =>
    simp only [splitNl]
    cases h : splitNl rest with
    | nil => simp
    | cons h2 t =>
      by_cases hc : c = '\n' <;> simp [hc]

theorem splitNl_of_no_nl : ∀ (a : Str), '\n' ∉ a → splitNl a = [a] := by
  intro a
  induction a with
  | nil => intro _; rfl
  | cons c rest ih =>
    intro h
    have hc : c ≠ '\n' := fun hx => h (by rw [hx]; exact List.mem_cons_self _ _)
    have hr : '\n' ∉ rest := fun hx => h (List.mem_cons_of_mem _ hx)
    simp only [splitNl, ih hr]
    rw [if_neg hc]

theorem splitNl_append_nl : ∀ (a b : Str),
    splitNl (a ++ '\n' :: b) = splitNl a ++ splitNl b := by
  intro a b
  induction a with
  | nil =>
    simp only [List.nil_append, splitNl]
    cases h : splitNl b with
    | nil => exact absurd h (splitNl_ne_nil b)
    | cons h2 t => simp
  | cons c a2 ih =>
    rw [List.cons_append]
    simp only [splitNl, ih]
    cases h : splitNl a2 with
    | nil => exact absurd h (splitNl_ne_nil a2)
    | cons h2 t =>
      simp only [List.cons_append]
      split <;> simp

theorem splitNl_jsJoin : ∀ (L : List Str), L ≠ [] → (∀ x ∈ L, '\n' ∉ x) →
    splitNl (jsJoin "\n".toList L) = L := by
  intro L
  induction L with
  | nil => intro h _; exact absurd rfl h
  | cons x t ih =>
    intro _ hx
    cases t with
    | nil => exact splitNl_of_no_nl x (hx x (List.mem_cons_self _ _))
    | cons y t2 =>
      have hjoin : jsJoin "\n".toList (x :: y :: t2) =
          x ++ '\n' :: jsJoin "\n".toList (y :: t2) := by
        simp [jsJoin]
      rw [hjoin, splitNl_append_nl,
        splitNl_of_no_nl x (hx x (List.mem_cons_self _ _)),
        ih (by simp) (fun z hz => hx z (List.mem_cons_of_mem _ hz))]
      rfl

theorem not_occursIn_jsJoin_nl {pat : Str} (hp : pat ≠ []) (hnl : '\n' ∉ pat) :
    ∀ (L : List Str), (∀ x ∈ L, ¬ OccursIn pat x) →
      ¬ OccursIn pat (jsJoin "\n".toList L) := by
  intro L
  induction L with
  | nil =>
    intro _
    exact not_occursIn_nil hp
  | cons x t ih =>
    intro hx
    cases t with
    | nil => exact hx x (List.mem_cons_self _ _)
    | cons y t2 =>
      have hjoin : jsJoin "\n".toList (x :: y :: t2) =
          x ++ '\n' :: jsJoin "\n".toList (y :: t2) := by
        simp [jsJoin]
      rw [hjoin]
      exact not_occursIn_append_nl (hx x (List.mem_cons_self _ _))
        (ih (fun z hz => hx z (List.mem_cons_of_mem _ hz))) hnl hp

/-! ## Marker character facts -/

theorem digitChar_mem_digits (n : Nat) : digitChar n ∈ "0123456789".toList := by
  match n with
  | 0 => decide
  | 1 => decide
  | 2 => decide
  | 3 => decide
  | 4 => decide
  | 5 => decide
  | 6 => decide
  | 7 => decide
  | 8 => decide
  | 9 => decide
  | (n + 10) =>
    show '0' ∈ _
    decide

theorem natDecimalGo_mem_digits : ∀ (fuel n : Nat) (c : Char),
    c ∈ natDecimalGo fuel n → c ∈ "0123456789".toList := by
  intro fuel
  induction fuel with
  | zero =>
    intro n c h
    cases h
  | succ f ih =>
    intro n c h
    simp only [natDecimalGo] at h
    split at h
    · rw [List.mem_singleton] at h
      rw [h]
      exact digitChar_mem_digits n
    · rcases List.mem_append.mp h with h1 | h1
      · exact ih _ c h1
      · rw [List.mem_singleton] at h1
        rw [h1]
        exact digitChar_mem_digits _

theorem natDecimal_mem_digits {n : Nat} {c : Char} (h : c ∈ natDecimal n) :
    c ∈ "0123456789".toList :=
  natDecimalGo_mem_digits _ _ _ h

theorem nl_not_mem_modMarker (n : Nat) : '\n' ∉ createModifiedMarker n := by
  intro h
  simp only [createModifiedMarker, List.mem_append] at h
  rcases h with (((h1 | h1) | h1) | h1) | h1
  · revert h1
    decide
  · exact absurd (natDecimal_mem_digits h1) (by decide)
  · revert h1
    decide
  · revert h1
    split <;> decide
  · revert h1
    decide

theorem nl_not_mem_readMarker (n : Nat) : '\n' ∉ createReadMarker n := by
  intro h
  simp only [createReadMarker, List.mem_append] at h
  rcases h with (((h1 | h1) | h1) | h1) | h1
  · revert h1
    decide
  · exact absurd (natDecimal_mem_digits h1) (by decide)
  · revert h1
    decide
  · revert h1
    split <;> decide
  · revert h1
    decide

theorem r_not_mem_modMarker (n : Nat) : 'r' ∉ createModifiedMarker n := by
  intro h
  simp only [createModifiedMarker, List.mem_append] at h
  rcases h with (((h1 | h1) | h1) | h1) | h1
  · revert h1
    decide
  · exact absurd (natDecimal_mem_digits h1) (by decide)
  · revert h1
    decide
  · revert h1
    split <;> decide
  · revert h1
    decide

theorem r_mem_readMarker (n : Nat) : 'r' ∈ createReadMarker n := by
  simp [createReadMarker]

theorem readMarker_ne_nil (n : Nat) : createReadMarker n ≠ [] := by
  intro h
  have : 'r' ∈ ([] : Str) := h ▸ r_mem_readMarker n
  cases this

theorem modMarker_head (n : Nat) :
    ∃ t, createModifiedMarker n = '[' :: t :=
  ⟨'+' :: (natDecimal n ++ " modified filename".toList ++
    (if n = 1 then [] else "s".toList) ++ "]".toList), by
      simp [createModifiedMarker]⟩

theorem readMarker_head (n : Nat) :
    ∃ t, createReadMarker n = '[' :: t :=
  ⟨'+' :: (natDecimal n ++ " read filename".toList ++
    (if n = 1 then [] else "s".toList) ++ "]".toList), by
      simp [createReadMarker]⟩

theorem modMarker_ne_nil (n : Nat) : createModifiedMarker n ≠ [] := by
  obtain ⟨t, ht⟩ := modMarker_head n
  rw [ht]
  simp

/-- The read marker never occurs in the modified marker (the latter has no
letter `r`). -/
theorem readMarker_not_occursIn_modMarker (n m : Nat) :
    ¬ OccursIn (createReadMarker n) (createModifiedMarker m) := by
  intro h
  exact r_not_mem_modMarker m (occursIn_subset h 'r' (r_mem_readMarker n))

/-- The read marker does not occur in `'\n' ::` the modified marker. -/
theorem readMarker_not_occursIn_nl_modMarker (n m : Nat) :
    ¬ OccursIn (createReadMarker n) ('\n' :: createModifiedMarker m) := by
  intro h
  rcases occursIn_cons_elim h with hlead | hocc
  · obtain ⟨t, ht⟩ := hlead
    obtain ⟨t2, ht2⟩ := readMarker_head n
    rw [ht2] at ht
    injection ht with h1 _
    cases h1
  · exact readMarker_not_occursIn_modMarker n m hocc

/-- The modified marker does not occur in a string without `'['`. -/
theorem modMarker_not_occursIn_of_no_bracket {s : Str} (m : Nat)
    (h : '[' ∉ s) : ¬ OccursIn (createModifiedMarker m) s := by
  intro hocc
  obtain ⟨t, ht⟩ := modMarker_head m
  apply h
  have := occursIn_subset hocc '['
  rw [ht] at this
  exact this (List.mem_cons_self _ _)

/-! ## C7: marker round-trip -/

theorem jsIncludes_true_iff : ∀ (s pat : Str), jsIncludes s pat = true ↔ OccursIn pat s := by
  intro s
  induction s with
  | nil =>
    intro pat
    cases pat with
    | nil =>
      simp only [jsIncludes]
      constructor
      · intro _
        exact ⟨[], [], rfl⟩
      · intro _
        rfl
    | cons c cs =>
      simp only [jsIncludes]
      constructor
      · intro h
        cases h
      · intro h
        exact absurd h (not_occursIn_nil (by simp))
  | cons c rest ih =>
    intro pat
    simp only [jsIncludes, Bool.or_eq_true]
    constructor
    · rintro (h | h)
      · exact occursIn_of_leadsIn ((isPrefixOf_true_iff _ _).mp h)
      · exact occursIn_of_occursIn_tail ((ih pat).mp h)
    · intro h
      rcases occursIn_cons_elim h with hlead | hocc
      · exact Or.inl ((isPrefixOf_true_iff _ _).mpr hlead)
      · exact Or.inr ((ih pat).mpr hocc)

instance occursInDecidable (pat s : Str) : Decidable (OccursIn pat s) :=
  decidable_of_iff _ (jsIncludes_true_iff s pat)

theorem modifiedExpansion_shape (l : List Str) :
    modifiedExpansion l = "<modified-files>".toList ++
      '\n' :: (jsJoin "\n".toList l ++ '\n' :: "</modified-files>".toList) := by
  simp [modifiedExpansion]

theorem readExpansion_shape (l : List Str) :
    readExpansion l = "<read-files>".toList ++
      '\n' :: (jsJoin "\n".toList l ++ '\n' :: "</read-files>".toList) := by
  simp [readExpansion]

theorem splitNl_modifiedExpansion (l : List Str) (hl : l ≠ [])
    (hnl : ∀ p ∈ l, '\n' ∉ p) :
    splitNl (modifiedExpansion l) =
      "<modified-files>".toList :: (l ++ ["</modified-files>".toList]) := by
  rw [modifiedExpansion_shape, splitNl_append_nl, splitNl_append_nl,
    splitNl_of_no_nl "<modified-files>".toList (by decide),
    splitNl_jsJoin l hl hnl,
    splitNl_of_no_nl "</modified-files>".toList (by decide)]
  simp

theorem splitNl_readExpansion (l : List Str) (hl : l ≠ [])
    (hnl : ∀ p ∈ l, '\n' ∉ p) :
    splitNl (readExpansion l) =
      "<read-files>".toList :: (l ++ ["</read-files>".toList]) := by
  rw [readExpansion_shape, splitNl_append_nl, splitNl_append_nl,
    splitNl_of_no_nl "<read-files>".toList (by decide),
    splitNl_jsJoin l hl hnl,
    splitNl_of_no_nl "</read-files>".toList (by decide)]
  simp

theorem modMarker_not_occursIn_readExpansion (m : Nat) (l : List Str)
    (hmp : ∀ p ∈ l, ¬ OccursIn (createModifiedMarker m) p) :
    ¬ OccursIn (createModifiedMarker m) (readExpansion l) := by
  rw [readExpansion_shape]
  refine not_occursIn_append_nl
    (modMarker_not_occursIn_of_no_bracket m (by decide)) ?_
    (nl_not_mem_modMarker m) (modMarker_ne_nil m)
  exact not_occursIn_append_nl
    (not_occursIn_jsJoin_nl (modMarker_ne_nil m) (nl_not_mem_modMarker m) l hmp)
    (modMarker_not_occursIn_of_no_bracket m (by decide))
    (nl_not_mem_modMarker m) (modMarker_ne_nil m)

/-- C7 (amended): for a file-op set whose paths contain no newline and whose
read-only paths do not contain the set's modified-files marker as a
substring, expanding the collapsed markers text with its own expansion map
yields exactly the tagged blocks, every path on its own line inside the
correctly tagged block. -/
theorem markers_roundTrip (messages : List MsgE) (fo : FileOpsResult)
    (hfo : buildFileOperations messages = some fo)
    (hnlr : ∀ p ∈ readFilesOf messages, '\n' ∉ p)
    (hnlm : ∀ p ∈ modifiedFilesOf messages, '\n' ∉ p)
    (hmp : ∀ p ∈ readFilesOf messages,
      ¬ OccursIn (createModifiedMarker (modifiedFilesOf messages).length) p) :
    splitNl (expandFileMarkers fo.markers fo.expansions) =
      (if readFilesOf messages = [] then []
       else "<read-files>".toList ::
         (readFilesOf messages ++ ["</read-files>".toList])) ++
      (if modifiedFilesOf messages = [] then []
       else "<modified-files>".toList ::
         (modifiedFilesOf messages ++ ["</modified-files>".toList])) ∧
    (∀ p ∈ readFilesOf messages,
      p ∈ splitNl (expandFileMarkers fo.markers fo.expansions)) ∧
    (∀ p ∈ modifiedFilesOf messages,
      p ∈ splitNl (expandFileMarkers fo.markers fo.expansions)) := by
  by_cases hro : readFilesOf messages = []
  · by_cases hmo : modifiedFilesOf messages = []
    · exfalso
      simp only [buildFileOperations] at hfo
      rw [if_pos ⟨hro, hmo⟩] at hfo
      cases hfo
    · -- only the modified group is present
      have hfo2 : fo = ⟨createModifiedMarker (modifiedFilesOf messages).length,
          [(createModifiedMarker (modifiedFilesOf messages).length,
            modifiedExpansion (modifiedFilesOf messages))]⟩ := by
        simp only [buildFileOperations] at hfo
        rw [if_neg (fun hand => hmo hand.2), if_pos hro, if_neg hmo] at hfo
        simp only [List.nil_append, List.map_cons, List.map_nil, jsJoin] at hfo
        exact (Option.some.inj hfo).symm
      subst hfo2
      have hstep : expandFileMarkers
          (createModifiedMarker (modifiedFilesOf messages).length)
          [(createModifiedMarker (modifiedFilesOf messages).length,
            modifiedExpansion (modifiedFilesOf messages))] =
          modifiedExpansion (modifiedFilesOf messages) := by
        simp only [expandFileMarkers, List.foldl_cons, List.foldl_nil]
        exact jsReplaceAll_exact (modMarker_ne_nil _)
      rw [hstep, splitNl_modifiedExpansion _ hmo hnlm, if_pos hro, if_neg hmo]
      refine ⟨by simp, ?_, ?_⟩
      · intro p hp
        rw [hro] at hp
        cases hp
      · intro p hp
        simp [hp]
  · by_cases hmo : modifiedFilesOf messages = []
    · -- only the read group is present
      have hfo2 : fo = ⟨createReadMarker (readFilesOf messages).length,
          [(createReadMarker (readFilesOf messages).length,
            readExpansion (readFilesOf messages))]⟩ := by
        simp only [buildFileOperations] at hfo
        rw [if_neg (fun hand => hro hand.1), if_neg hro, if_pos hmo] at hfo
        simp only [List.append_nil, List.map_cons, List.map_nil, jsJoin] at hfo
        exact (Option.some.inj hfo).symm
      subst hfo2
      have hstep : expandFileMarkers
          (createReadMarker (readFilesOf messages).length)
          [(createReadMarker (readFilesOf messages).length,
            readExpansion (readFilesOf messages))] =
          readExpansion (readFilesOf messages) := by
        simp only [expandFileMarkers, List.foldl_cons, List.foldl_nil]
        exact jsReplaceAll_exact (readMarker_ne_nil _)
      rw [hstep, splitNl_readExpansion _ hro hnlr, if_neg hro, if_pos hmo]
      refine ⟨by simp, ?_, ?_⟩
      · intro p hp
        simp [hp]
      · intro p hp
        rw [hmo] at hp
        cases hp
    · -- both groups are present
      have hfo2 : fo = ⟨createReadMarker (readFilesOf messages).length ++
            '\n' :: createModifiedMarker (modifiedFilesOf messages).length,
          [(createReadMarker (readFilesOf messages).length,
            readExpansion (readFilesOf messages)),
           (createModifiedMarker (modifiedFilesOf messages).length,
            modifiedExpansion (modifiedFilesOf messages))]⟩ := by
        simp only [buildFileOperations] at hfo
        rw [if_neg (fun hand => hro hand.1), if_neg hro, if_neg hmo] at hfo
        simp only [List.cons_append, List.nil_append, List.map_cons, List.map_nil,
          jsJoin] at hfo
        rw [← Option.some.inj hfo]
        congr 1
        simp
      subst hfo2
      have hstep : expandFileMarkers
          (createReadMarker (readFilesOf messages).length ++
            '\n' :: createModifiedMarker (modifiedFilesOf messages).length)
          [(createReadMarker (readFilesOf messages).length,
            readExpansion (readFilesOf messages)),
           (createModifiedMarker (modifiedFilesOf messages).length,
            modifiedExpansion (modifiedFilesOf messages))] =
          readExpansion (readFilesOf messages) ++
            '\n' :: modifiedExpansion (modifiedFilesOf messages) := by
        simp only [expandFileMarkers, List.foldl_cons, List.foldl_nil]
        rw [jsReplaceAll_first_marker (readMarker_ne_nil _)
          (readMarker_not_occursIn_nl_modMarker _ _)]
        exact jsReplaceAll_second_marker (modMarker_ne_nil _)
          (nl_not_mem_modMarker _)
          (modMarker_not_occursIn_readExpansion _ _ hmp)
      rw [hstep, splitNl_append_nl, splitNl_readExpansion _ hro hnlr,
        splitNl_modifiedExpansion _ hmo hnlm, if_neg hro, if_neg hmo]
      refine ⟨by simp, ?_, ?_⟩
      · intro p hp
        simp [hp]
      · intro p hp
        simp [hp]

/-- A concrete conversation for the C7 witness: reads of `a.ts` and `b.ts`,
a write of `c.ts`. -/
def msgsMarkersWitness : List MsgE :=
  [⟨"assistant".toList,
    some [CBlockM.toolCall true "read".toList (some "a.ts".toList),
          CBlockM.toolCall true "read".toList (some "b.ts".toList),
          CBlockM.toolCall true "write".toList (some "c.ts".toList)]⟩]

/-- Witness for C7 (amended) at a concrete conversation. -/
theorem markers_roundTrip_witness :
    splitNl (expandFileMarkers
        ("[+2 read filenames]".toList ++ '\n' :: "[+1 modified filename]".toList)
        [("[+2 read filenames]".toList, readExpansion ["a.ts".toList, "b.ts".toList]),
         ("[+1 modified filename]".toList, modifiedExpansion ["c.ts".toList])]) =
      (if readFilesOf msgsMarkersWitness = [] then []
       else "<read-files>".toList ::
         (readFilesOf msgsMarkersWitness ++ ["</read-files>".toList])) ++
      (if modifiedFilesOf msgsMarkersWitness = [] then []
       else "<modified-files>".toList ::
         (modifiedFilesOf msgsMarkersWitness ++ ["</modified-files>".toList])) ∧
    (∀ p ∈ readFilesOf msgsMarkersWitness,
      p ∈ splitNl (expandFileMarkers
        ("[+2 read filenames]".toList ++ '\n' :: "[+1 modified filename]".toList)
        [("[+2 read filenames]".toList, readExpansion ["a.ts".toList, "b.ts".toList]),
         ("[+1 modified filename]".toList, modifiedExpansion ["c.ts".toList])])) ∧
    (∀ p ∈ modifiedFilesOf msgsMarkersWitness,
      p ∈ splitNl (expandFileMarkers
        ("[+2 read filenames]".toList ++ '\n' :: "[+1 modified filename]".toList)
        [("[+2 read filenames]".toList, readExpansion ["a.ts".toList, "b.ts".toList]),
         ("[+1 modified filename]".toList, modifiedExpansion ["c.ts".toList])])) :=
  markers_roundTrip msgsMarkersWitness
    ⟨"[+2 read filenames]".toList ++ '\n' :: "[+1 modified filename]".toList,
     [("[+2 read filenames]".toList, readExpansion ["a.ts".toList, "b.ts".toList]),
      ("[+1 modified filename]".toList, modifiedExpansion ["c.ts".toList])]⟩
    (by decide) (by decide) (by decide) (by decide)

/-- A conversation whose read path is literally the modified-files marker of
the resulting set. -/
def msgsMarkersClash : List MsgE :=
  [⟨"assistant".toList,
    some [CBlockM.toolCall true "read".toList (some "[+1 modified filename]".toList),
          CBlockM.toolCall true "write".toList (some "X".toList)]⟩]

/-- Counterexample for C7 as stated: with a read path equal to the set's
modified-files marker, the second `replaceAll` pass rewrites that path
inside the already-expanded read block, so the expansion contains it on no
line at all — the claimed universal round-trip fails. -/
theorem markers_roundTrip_counterexample :
    "[+1 modified filename]".toList ∈ readFilesOf msgsMarkersClash ∧
    buildFileOperations msgsMarkersClash =
      some ⟨"[+1 read filename]\n[+1 modified filename]".toList,
        [("[+1 read filename]".toList,
          "<read-files>\n[+1 modified filename]\n</read-files>".toList),
         ("[+1 modified filename]".toList,
          "<modified-files>\nX\n</modified-files>".toList)]⟩ ∧
    expandFileMarkers "[+1 read filename]\n[+1 modified filename]".toList
        [("[+1 read filename]".toList,
          "<read-files>\n[+1 modified filename]\n</read-files>".toList),
         ("[+1 modified filename]".toList,
          "<modified-files>\nX\n</modified-files>".toList)] =
      ("<read-files>\n<modified-files>\nX\n</modified-files>\n</read-files>" ++
        "\n<modified-files>\nX\n</modified-files>").toList ∧
    "[+1 modified filename]".toList ∉
      splitNl ("<read-files>\n<modified-files>\nX\n</modified-files>\n</read-files>" ++
        "\n<modified-files>\nX\n</modified-files>").toList := by
  refine ⟨by decide, by decide, by decide, by decide⟩

/-! ## C5: the ancestry walker -/

/-- One parent-following step: file `a`'s header names `b` as its parent. -/
def parentStep (fs : FS) (a b : Str) : Prop :=
  headerParent (getSessionHeader fs a) = some b

theorem ancestryGo_extends (fs : FS) :
    ∀ (fuel : Nat) (visited anc : List Str) (cur : Option Str),
      ∃ ext, ancestryGo fs fuel visited anc cur = anc ++ ext := by
  intro fuel
  induction fuel with
  | zero =>
    intro visited anc cur
    exact ⟨[], by simp [ancestryGo]⟩
  | succ f ih =>
    intro visited anc cur
    cases cur with
    | none => exact ⟨[], by simp [ancestryGo]⟩
    | some c =>
      by_cases hc : c = []
      · exact ⟨[], by simp [ancestryGo, hc]⟩
      · by_cases hv : c ∈ visited
        · refine ⟨[], ?_⟩
          simp only [ancestryGo]
          rw [if_neg hc, if_pos hv, List.append_nil]
        · obtain ⟨ext, hext⟩ := ih (visited ++ [c]) (anc ++ [c])
            (headerParent (getSessionHeader fs c))
          refine ⟨c :: ext, ?_⟩
          simp only [ancestryGo]
          rw [if_neg hc, if_neg hv, hext]
          simp

theorem ancestryGo_nodup (fs : FS) :
    ∀ (fuel : Nat) (visited anc : List Str) (cur : Option Str),
      visited = anc → anc.Nodup → (ancestryGo fs fuel visited anc cur).Nodup := by
  intro fuel
  induction fuel with
  | zero =>
    intro visited anc cur _ h
    exact h
  | succ f ih =>
    intro visited anc cur hva h
    cases cur with
    | none => exact h
    | some c =>
      by_cases hc : c = []
      · simp only [ancestryGo]
        rw [if_pos hc]
        exact h
      · by_cases hv : c ∈ visited
        · simp only [ancestryGo]
          rw [if_neg hc, if_pos hv]
          exact h
        · simp only [ancestryGo]
          rw [if_neg hc, if_neg hv]
          refine ih _ _ _ (by rw [hva]) ?_
          rw [List.nodup_append]
          refine ⟨h, List.nodup_singleton c, ?_⟩
          intro a ha hb
          rw [List.mem_singleton] at hb
          subst hb
          rw [hva] at hv
          exact hv ha

theorem ancestryGo_chain' (fs : FS) :
    ∀ (fuel : Nat) (visited anc : List Str) (cur : Option Str),
      visited = anc → List.Chain' (parentStep fs) anc →
      (∀ c, cur = some c → ∀ l ∈ anc.getLast?, parentStep fs l c) →
      List.Chain' (parentStep fs) (ancestryGo fs fuel visited anc cur) := by
  intro fuel
  induction fuel with
  | zero =>
    intro visited anc cur _ h _
    exact h
  | succ f ih =>
    intro visited anc cur hva h hlink
    cases cur with
    | none => exact h
    | some c =>
      by_cases hc : c = []
      · simp only [ancestryGo]
        rw [if_pos hc]
        exact h
      · by_cases hv : c ∈ visited
        · simp only [ancestryGo]
          rw [if_neg hc, if_pos hv]
          exact h
        · simp only [ancestryGo]
          rw [if_neg hc, if_neg hv]
          refine ih _ _ _ (by rw [hva]) ?_ ?_
          · rw [List.chain'_append]
            refine ⟨h, List.chain'_singleton c, ?_⟩
            intro x hx y hy
            simp only [List.head?_cons, Option.mem_def, Option.some.injEq] at hy
            subst hy
            exact hlink c rfl x hx
          · intro c2 hc2 l hl
            rw [List.getLast?_concat] at hl
            simp only [Option.mem_def, Option.some.injEq] at hl
            subst hl
            exact hc2

theorem ancestryGo_exact_chain (fs : FS) :
    ∀ (rest : List Str) (p : Str) (fuel : Nat) (visited anc : List Str),
      visited = anc →
      (∀ q ∈ p :: rest, q ∉ visited) →
      (p :: rest).Nodup →
      (∀ q ∈ p :: rest, q ≠ []) →
      List.Chain' (parentStep fs) (p :: rest) →
      (headerParent (getSessionHeader fs ((p :: rest).getLast (by simp))) = none ∨
       headerParent (getSessionHeader fs ((p :: rest).getLast (by simp))) = some []) →
      (p :: rest).length + 1 ≤ fuel →
      ancestryGo fs fuel visited anc (some p) = anc ++ (p :: rest) := by
  intro rest
  induction rest with
  | nil =>
    intro p fuel visited anc hva hfresh hnodup hne hchain hstop hfuel
    obtain ⟨f1, rfl⟩ : ∃ f1, fuel = (f1 + 1) + 1 := ⟨fuel - 2, by simp at hfuel; omega⟩
    simp only [ancestryGo]
    rw [if_neg (hne p (List.mem_cons_self _ _)),
      if_neg (hfresh p (List.mem_cons_self _ _))]
    have hlast : (([p] : List Str).getLast (by simp)) = p := rfl
    rw [hlast] at hstop
    rcases hstop with hstop | hstop
    · simp only [ancestryGo, hstop]
    · simp only [ancestryGo, hstop]
      simp
  | cons q rest2 ih =>
    intro p fuel visited anc hva hfresh hnodup hne hchain hstop hfuel
    obtain ⟨f1, rfl⟩ : ∃ f1, fuel = f1 + 1 := ⟨fuel - 1, by simp at hfuel; omega⟩
    simp only [ancestryGo]
    rw [if_neg (hne p (List.mem_cons_self _ _)),
      if_neg (hfresh p (List.mem_cons_self _ _))]
    have hpq : parentStep fs p q := List.rel_of_chain_cons hchain
    rw [show headerParent (getSessionHeader fs p) = some q from hpq]
    have hres := ih q f1 (visited ++ [p]) (anc ++ [p]) (by rw [hva]) ?_ ?_ ?_ ?_ ?_ ?_
    · rw [hres]
      simp
    · intro z hz
      rw [List.mem_append, List.mem_singleton]
      rintro (h1 | h1)
      · exact hfresh z (List.mem_cons_of_mem _ hz) h1
      · subst h1
        exact (List.nodup_cons.mp hnodup).1 hz
    · exact (List.nodup_cons.mp hnodup).2
    · intro z hz
      exact hne z (List.mem_cons_of_mem _ hz)
    · exact (List.chain'_cons.mp hchain).2
    · have hgl : ((q :: rest2).getLast (by simp) : Str) =
          ((p :: q :: rest2).getLast (by simp)) :=
        (List.getLast_cons (by simp)).symm
      rw [hgl]
      exact hstop
    · simp only [List.length_cons] at hfuel ⊢
      omega

theorem nodup_subset_length_le {l l2 : List Str} (hnd : l.Nodup) (hsub : l ⊆ l2) :
    l.length ≤ l2.length := by
  have h1 : l.toFinset.card = l.length := List.toFinset_card_of_nodup hnd
  have h2 : l.toFinset ⊆ l2.toFinset := by
    intro a ha
    rw [List.mem_toFinset] at ha ⊢
    exact hsub ha
  have h3 := Finset.card_le_card h2
  have h4 := List.toFinset_card_le l2
  omega

theorem parentStep_mem_keys {fs : FS} {a b : Str} (h : parentStep fs a b) :
    a ∈ fs.map Prod.fst := by
  unfold parentStep headerParent at h
  rcases hg : getSessionHeader fs a with _ | hdr
  · rw [hg] at h
    cases h
  · unfold getSessionHeader at hg
    rcases hl : fsLookup fs a with _ | content
    · rw [hl] at hg
      cases hg
    · unfold fsLookup at hl
      rcases hf : fs.find? (fun f => f.1 = a) with _ | e
      · rw [hf] at hl
        cases hl
      · have hmem := List.mem_of_find?_eq_some hf
        have hkey := List.find?_some hf
        rw [decide_eq_true_eq] at hkey
        rw [← hkey]
        exact List.mem_map_of_mem Prod.fst hmem

theorem chain_dropLast_parentStep (fs : FS) :
    ∀ (chain : List Str), List.Chain' (parentStep fs) chain →
      ∀ p ∈ chain.dropLast, ∃ b, parentStep fs p b := by
  intro chain
  induction chain with
  | nil =>
    intro _ p hp
    cases hp
  | cons x t ih =>
    intro hchain p hp
    cases t with
    | nil => cases hp
    | cons y t2 =>
      rw [List.dropLast_cons₂, List.mem_cons] at hp
      rcases hp with rfl | hp
      · exact ⟨y, List.rel_of_chain_cons hchain⟩
      · exact ih (List.chain'_cons.mp hchain).2 p hp

theorem ancestryGo_step (fs : FS) (f : Nat) (visited anc : List Str) (c : Str)
    (hc : c ≠ []) (hv : c ∉ visited) :
    ancestryGo fs (f + 1) visited anc (some c) =
      ancestryGo fs f (visited ++ [c]) (anc ++ [c])
        (headerParent (getSessionHeader fs c)) := by
  simp only [ancestryGo]
  rw [if_neg hc, if_neg hv]

instance parentStepDecidable (fs : FS) : DecidableRel (parentStep fs) :=
  fun a b =>
    inferInstanceAs (Decidable (headerParent (getSessionHeader fs a) = some b))

/-- C5: for every chain of length n reachable from the starting file by
following `parentSession` headers (ending where the header is missing,
malformed, or names no usable parent), the walker returns exactly those n
paths in order; and on every input (cyclic graphs included) the result
starts at the given file, is consecutively parent-linked, and repeats no
path. -/
theorem sessionAncestry_spec :
    (∀ (fs : FS) (p : Str) (rest : List Str),
      (p :: rest).Nodup →
      (∀ q ∈ p :: rest, q ≠ []) →
      List.Chain' (parentStep fs) (p :: rest) →
      (headerParent (getSessionHeader fs ((p :: rest).getLast (by simp))) = none ∨
       headerParent (getSessionHeader fs ((p :: rest).getLast (by simp))) = some []) →
      getSessionAncestry fs p = p :: rest) ∧
    (∀ fs start, (getSessionAncestry fs start).Nodup) ∧
    (∀ fs start, start ≠ [] → ∃ t, getSessionAncestry fs start = start :: t) ∧
    (∀ fs start, List.Chain' (parentStep fs) (getSessionAncestry fs start)) := by
  refine ⟨?_, ?_, ?_, ?_⟩
  · intro fs p rest hnodup hne hchain hstop
    have hlen : (p :: rest).length + 1 ≤ fs.length + 2 := by
      have hsub : (p :: rest).dropLast ⊆ fs.map Prod.fst := by
        intro z hz
        obtain ⟨b, hb⟩ := chain_dropLast_parentStep fs _ hchain z hz
        exact parentStep_mem_keys hb
      have hnd2 : (p :: rest).dropLast.Nodup :=
        List.Nodup.sublist (List.dropLast_sublist _) hnodup
      have hle := nodup_subset_length_le hnd2 hsub
      rw [List.length_dropLast, List.length_map] at hle
      simp only [List.length_cons] at hle ⊢
      omega
    exact ancestryGo_exact_chain fs rest p (fs.length + 2) [] [] rfl
      (fun q _ => List.not_mem_nil q) hnodup hne hchain hstop hlen
  · intro fs start
    exact ancestryGo_nodup fs _ [] [] (some start) rfl List.nodup_nil
  · intro fs start hne
    have step1 : getSessionAncestry fs start =
        ancestryGo fs (fs.length + 1) ([] ++ [start]) ([] ++ [start])
          (headerParent (getSessionHeader fs start)) :=
      ancestryGo_step fs (fs.length + 1) [] [] start hne (List.not_mem_nil start)
    obtain ⟨ext, hext⟩ := ancestryGo_extends fs (fs.length + 1) ([] ++ [start])
      ([] ++ [start]) (headerParent (getSessionHeader fs start))
    refine ⟨ext, ?_⟩
    rw [step1, hext]
    rfl
  · intro fs start
    exact ancestryGo_chain' fs _ [] [] (some start) rfl List.chain'_nil
      (fun c _ l hl => by cases hl)

/-- Witness for C5: a two-file chain `A → B` (with `B`'s header naming no
parent) is returned exactly, in order. -/
theorem sessionAncestry_spec_witness :
    getSessionAncestry
      [("A".toList,
        ([lbrace] ++ "\"type\":\"session\",\"parentSession\":\"B\"".toList ++
          [rbrace] ++ "\nrest".toList)),
       ("B".toList,
        ([lbrace] ++ "\"type\":\"session\"".toList ++ [rbrace] ++ "\n".toList))]
      "A".toList = ["A".toList, "B".toList] :=
  sessionAncestry_spec.1
    [("A".toList,
      ([lbrace] ++ "\"type\":\"session\",\"parentSession\":\"B\"".toList ++
        [rbrace] ++ "\nrest".toList)),
     ("B".toList,
      ([lbrace] ++ "\"type\":\"session\"".toList ++ [rbrace] ++ "\n".toList))]
    "A".toList ["B".toList] (by decide) (by decide)
    (List.chain'_cons.mpr ⟨by decide, List.chain'_singleton _⟩) (by decide)

/-! ## C4: prompt assembly around the parent reference -/

theorem getSessionAncestry_cons (fs : FS) (start : Str) (hne : start ≠ []) :
    ∃ t, getSessionAncestry fs start = start :: t := by
  have step1 : getSessionAncestry fs start =
      ancestryGo fs (fs.length + 1) ([] ++ [start]) ([] ++ [start])
        (headerParent (getSessionHeader fs start)) :=
    ancestryGo_step fs (fs.length + 1) [] [] start hne (List.not_mem_nil start)
  obtain ⟨ext, hext⟩ := ancestryGo_extends fs (fs.length + 1) ([] ++ [start])
    ([] ++ [start]) (headerParent (getSessionHeader fs start))
  refine ⟨ext, ?_⟩
  rw [step1, hext]
  rfl

theorem jsJoin_append_empty (sep : Str) :
    ∀ (L : List Str), L ≠ [] → jsJoin sep (L ++ [[]]) = jsJoin sep L ++ sep := by
  intro L
  induction L with
  | nil => intro h; exact absurd rfl h
  | cons x t ih =>
    intro _
    cases t with
    | nil => simp [jsJoin]
    | cons y t2 =>
      have h1 : jsJoin sep ((x :: y :: t2) ++ [[]]) =
          x ++ sep ++ jsJoin sep ((y :: t2) ++ [[]]) := by
        simp [jsJoin]
      rw [h1, ih (by simp), jsJoin]
      simp

/-- C4 (amended): with a null parent the body is returned unchanged (and the
wrapper introduces neither the skill directive nor the parent marker); with
a non-null, non-empty parent path whose ancestry contains no newline, the
assembled prompt begins with the skill directive and its lines are exactly:
the skill directive, a blank line, the parent line showing the first
ancestor (the given parent), then — only when the ancestry has more than one
entry — a blank line, the ancestor header, and one bullet per additional
ancestor; the body starts on the line immediately after the header block
(a newline, not a blank line, separates them). -/
theorem wrapWithParentSession_structure :
    (∀ (fs : FS) (body : Str), wrapWithParentSession fs body none = body) ∧
    (∀ (fs : FS) (body : Str),
      ¬ OccursIn "/skill:pi-session-query".toList body →
        ¬ OccursIn "/skill:pi-session-query".toList (wrapWithParentSession fs body none)) ∧
    (∀ (fs : FS) (body : Str),
      ¬ OccursIn "**Parent session:**".toList body →
        ¬ OccursIn "**Parent session:**".toList (wrapWithParentSession fs body none)) ∧
    (∀ (fs : FS) (body p : Str), p ≠ [] →
      (∀ a ∈ getSessionAncestry fs p, '\n' ∉ a) →
      LeadsIn "/skill:pi-session-query".toList (wrapWithParentSession fs body (some p)) ∧
      (getSessionAncestry fs p).headD [] = p ∧
      splitNl (wrapWithParentSession fs body (some p)) =
        "/skill:pi-session-query".toList :: [] ::
          ("**Parent session:** `".toList ++ p ++ "`".toList) ::
          ((if (getSessionAncestry fs p).length > 1 then
              [] :: "**Ancestor sessions:**".toList ::
                ((getSessionAncestry fs p).drop 1).map
                  (fun a => "- `".toList ++ a ++ "`".toList)
            else []) ++ splitNl body)) := by
  refine ⟨fun fs body => rfl, fun fs body h => h, fun fs body h => h, ?_⟩
  intro fs body p hne hnl
  obtain ⟨ext, hanc⟩ := getSessionAncestry_cons fs p hne
  have hmemp : p ∈ getSessionAncestry fs p := by
    rw [hanc]
    exact List.mem_cons_self _ _
  have hwrap : wrapWithParentSession fs body (some p) =
      jsJoin "\n".toList
        (("/skill:pi-session-query".toList : Str) :: ([] : Str) ::
          ("**Parent session:** `".toList ++ p ++ "`".toList) ::
          (if (getSessionAncestry fs p).length > 1 then
            ([] : Str) :: "**Ancestor sessions:**".toList ::
              ((getSessionAncestry fs p).drop 1).map
                (fun a => "- `".toList ++ a ++ "`".toList)
           else []) ++ [([] : Str)]) ++ body := by
    simp only [wrapWithParentSession]
    rw [if_neg hne]
    have hhd : (getSessionAncestry fs p).headD "undefined".toList = p := by
      rw [hanc]
      rfl
    rw [hhd]
    simp [List.append_assoc]
  have hA : (("/skill:pi-session-query".toList : Str) :: ([] : Str) ::
      ("**Parent session:** `".toList ++ p ++ "`".toList) ::
      (if (getSessionAncestry fs p).length > 1 then
        ([] : Str) :: "**Ancestor sessions:**".toList ::
          ((getSessionAncestry fs p).drop 1).map
            (fun a => "- `".toList ++ a ++ "`".toList)
       else [])) ≠ [] := by simp
  have hAnl : ∀ x ∈ (("/skill:pi-session-query".toList : Str) :: ([] : Str) ::
      ("**Parent session:** `".toList ++ p ++ "`".toList) ::
      (if (getSessionAncestry fs p).length > 1 then
        ([] : Str) :: "**Ancestor sessions:**".toList ::
          ((getSessionAncestry fs p).drop 1).map
            (fun a => "- `".toList ++ a ++ "`".toList)
       else [])), '\n' ∉ x := by
    intro x hx
    rcases List.mem_cons.mp hx with rfl | hx
    · decide
    rcases List.mem_cons.mp hx with rfl | hx
    · decide
    rcases List.mem_cons.mp hx with rfl | hx
    · intro hmem
      rcases List.mem_append.mp hmem with h1 | h1
      · rcases List.mem_append.mp h1 with h2 | h2
        · revert h2
          decide
        · exact hnl p hmemp h2
      · revert h1
        decide
    · by_cases hlen : (getSessionAncestry fs p).length > 1
      · rw [if_pos hlen] at hx
        rcases List.mem_cons.mp hx with rfl | hx
        · decide
        rcases List.mem_cons.mp hx with rfl | hx
        · decide
        · obtain ⟨a, ha, rfl⟩ := List.mem_map.mp hx
          intro hmem
          rcases List.mem_append.mp hmem with h1 | h1
          · rcases List.mem_append.mp h1 with h2 | h2
            · revert h2
              decide
            · exact hnl a (List.mem_of_mem_drop ha) h2
          · revert h1
            decide
      · rw [if_neg hlen] at hx
        cases hx
  have hjoin : jsJoin "\n".toList
      ((("/skill:pi-session-query".toList : Str) :: ([] : Str) ::
        ("**Parent session:** `".toList ++ p ++ "`".toList) ::
        (if (getSessionAncestry fs p).length > 1 then
          ([] : Str) :: "**Ancestor sessions:**".toList ::
            ((getSessionAncestry fs p).drop 1).map
              (fun a => "- `".toList ++ a ++ "`".toList)
         else [])) ++ [([] : Str)]) ++ body =
      jsJoin "\n".toList
        (("/skill:pi-session-query".toList : Str) :: ([] : Str) ::
          ("**Parent session:** `".toList ++ p ++ "`".toList) ::
          (if (getSessionAncestry fs p).length > 1 then
            ([] : Str) :: "**Ancestor sessions:**".toList ::
              ((getSessionAncestry fs p).drop 1).map
                (fun a => "- `".toList ++ a ++ "`".toList)
           else [])) ++ '\n' :: body := by
    rw [jsJoin_append_empty _ _ hA]
    simp
  refine ⟨?_, by rw [hanc]; rfl, ?_⟩
  · rw [hwrap, hjoin]
    refine ⟨'\n' :: (jsJoin "\n".toList (([] : Str) ::
      ("**Parent session:** `".toList ++ p ++ "`".toList) ::
      (if (getSessionAncestry fs p).length > 1 then
        ([] : Str) :: "**Ancestor sessions:**".toList ::
          ((getSessionAncestry fs p).drop 1).map
            (fun a => "- `".toList ++ a ++ "`".toList)
       else [])) ++ '\n' :: body), ?_⟩
    simp [jsJoin]
  · rw [hwrap, hjoin, splitNl_append_nl, splitNl_jsJoin _ hA hAnl]
    simp

/-- The prompt assembler exactly as the specification's words describe it:
the header block is the skill directive, a blank line, the parent line, the
optional ancestor block, and finally a blank line separating the header
block from the body. -/
def wrapWithParentSessionClaimed (fs : FS) (prompt : Str)
    (parentSessionFile : Option Str) : Str :=
  match parentSessionFile with
  | none => prompt
  | some p =>
    if p = [] then prompt
    else
      let ancestry := getSessionAncestry fs p
      let headerLines : List Str :=
        ["/skill:pi-session-query".toList, []] ++
        ["**Parent session:** `".toList ++ ancestry.headD "undefined".toList ++
          "`".toList] ++
        (if ancestry.length > 1 then
          [[], "**Ancestor sessions:**".toList] ++
            (ancestry.drop 1).map (fun a => "- `".toList ++ a ++ "`".toList)
         else []) ++
        [[]]
      jsJoin "\n".toList headerLines ++ '\n' :: prompt

/-- Counterexample for C4 as stated: the source joins the header lines
(whose last entry is the empty string) and concatenates the body directly,
so only a single newline separates the parent line from the body — the
body is NOT preceded by a blank line as the claim requires. -/
theorem wrapWithParentSession_counterexample :
    wrapWithParentSession [] "BODY".toList (some "P".toList) =
      "/skill:pi-session-query\n\n**Parent session:** `P`\nBODY".toList ∧
    wrapWithParentSessionClaimed [] "BODY".toList (some "P".toList) =
      "/skill:pi-session-query\n\n**Parent session:** `P`\n\nBODY".toList ∧
    wrapWithParentSession [] "BODY".toList (some "P".toList) ≠
      wrapWithParentSessionClaimed [] "BODY".toList (some "P".toList) ∧
    splitNl (wrapWithParentSession [] "BODY".toList (some "P".toList)) =
      ["/skill:pi-session-query".toList, [],
       "**Parent session:** `P`".toList, "BODY".toList] :=
  ⟨by decide, by decide, by decide, by decide⟩

/-- Witness for C4 (amended) at a concrete parent with a one-entry
ancestry. -/
theorem wrapWithParentSession_structure_witness :
    LeadsIn "/skill:pi-session-query".toList
      (wrapWithParentSession [] "Hello\nWorld".toList (some "P".toList)) ∧
    (getSessionAncestry [] "P".toList).headD [] = "P".toList ∧
    splitNl (wrapWithParentSession [] "Hello\nWorld".toList (some "P".toList)) =
      "/skill:pi-session-query".toList :: [] ::
        ("**Parent session:** `".toList ++ "P".toList ++ "`".toList) ::
        ((if (getSessionAncestry [] "P".toList).length > 1 then
            [] :: "**Ancestor sessions:**".toList ::
              ((getSessionAncestry [] "P".toList).drop 1).map
                (fun a => "- `".toList ++ a ++ "`".toList)
          else []) ++ splitNl "Hello\nWorld".toList) :=
  wrapWithParentSession_structure.2.2.2 [] "Hello\nWorld".toList "P".toList
    (by decide) (by decide)

/-! ## C8: goal slugging -/

/-- The slug pipeline exactly as the claim's words describe it, with the
character class amended from `[a-z0-9 -]` to `[a-z0-9\s-]` (all whitespace
is kept by the strip, to be trimmed and collapsed by the later stages). -/
def goalToSessionNameAmendedSpec (goal : Str) : Str :=
  let lowered := goal.map jsToLower
  let stripped := lowered.filter
    (fun c => ('a' ≤ c && c ≤ 'z') || ('0' ≤ c && c ≤ '9') || jsIsWs c || c = '-')
  let trimmed := jsTrim stripped
  let collapsed := collapseWs false trimmed
  collapsed.take 50

/-- The slug pipeline exactly as the claim's words state it: characters
outside the literal class `[a-z0-9 -]` (lowercase letters, digits, the
space character and the hyphen) are stripped before trimming and
collapsing. -/
def goalToSessionNameClaimedSpec (goal : Str) : Str :=
  let lowered := goal.map jsToLower
  let stripped := lowered.filter
    (fun c => ('a' ≤ c && c ≤ 'z') || ('0' ≤ c && c ≤ '9') || c = ' ' || c = '-')
  let trimmed := jsTrim stripped
  let collapsed := collapseWs false trimmed
  collapsed.take 50

theorem mem_collapseWs :
    ∀ (u : Str) (b : Bool) (c : Char), c ∈ collapseWs b u →
      c = '-' ∨ (c ∈ u ∧ jsIsWs c = false) := by
  intro u
  induction u with
  | nil =>
    intro b c h
    cases h
  | cons d rest ih =>
    intro b c h
    simp only [collapseWs] at h
    by_cases hd : jsIsWs d = true
    · rw [if_pos hd] at h
      cases b with
      | true =>
        simp only [if_pos rfl] at h
        rcases ih true c h with h1 | ⟨h1, h2⟩
        · exact Or.inl h1
        · exact Or.inr ⟨List.mem_cons_of_mem _ h1, h2⟩
      | false =>
        simp only [Bool.false_eq_true, if_false] at h
        rcases List.mem_cons.mp h with rfl | h1
        · exact Or.inl rfl
        · rcases ih true c h1 with h2 | ⟨h2, h3⟩
          · exact Or.inl h2
          · exact Or.inr ⟨List.mem_cons_of_mem _ h2, h3⟩
    · rw [if_neg hd] at h
      rcases List.mem_cons.mp h with rfl | h1
      · exact Or.inr ⟨List.mem_cons_self _ _, by
          cases hx : jsIsWs c
          · rfl
          · exact absurd hx hd⟩
      · rcases ih false c h1 with h2 | ⟨h2, h3⟩
        · exact Or.inl h2
        · exact Or.inr ⟨List.mem_cons_of_mem _ h2, h3⟩

theorem mem_of_mem_jsTrim {s : Str} {c : Char} (h : c ∈ jsTrim s) : c ∈ s := by
  unfold jsTrim jsTrimEnd jsTrimStart at h
  rw [List.mem_reverse] at h
  have h1 := (List.dropWhile_sublist _).subset h
  rw [List.mem_reverse] at h1
  exact (List.dropWhile_sublist _).subset h1

/-- C8 (amended): `goalToSessionName` lowercases, strips characters outside
`[a-z0-9\s-]`, trims, collapses whitespace runs to a single hyphen, and
truncates to at most 50 characters; every output character is a lowercase
letter, digit or hyphen; the empty input and inputs consisting only of
stripped characters yield the empty string. -/
theorem goalToSessionName_spec :
    (∀ g, goalToSessionName g = goalToSessionNameAmendedSpec g) ∧
    (∀ g, (goalToSessionName g).length ≤ 50) ∧
    (∀ g c, c ∈ goalToSessionName g →
      ('a' ≤ c ∧ c ≤ 'z') ∨ ('0' ≤ c ∧ c ≤ '9') ∨ c = '-') ∧
    goalToSessionName [] = [] ∧
    (∀ g, (∀ c ∈ g, keepClass (jsToLower c) = false) →
      goalToSessionName g = []) := by
  refine ⟨fun g => rfl, fun g => List.length_take_le _ _, ?_, rfl, ?_⟩
  · intro g c h
    have h1 : c ∈ collapseWs false (jsTrim ((g.map jsToLower).filter keepClass)) :=
      List.take_subset _ _ h
    rcases mem_collapseWs _ false c h1 with h2 | ⟨h2, h3⟩
    · exact Or.inr (Or.inr h2)
    · have h4 : c ∈ (g.map jsToLower).filter keepClass := mem_of_mem_jsTrim h2
      have h5 : keepClass c = true := (List.mem_filter.mp h4).2
      simp only [keepClass, Bool.or_eq_true, Bool.and_eq_true,
        decide_eq_true_eq] at h5
      rcases h5 with ((⟨ha, hb⟩ | ⟨ha, hb⟩) | hw) | hh
      · exact Or.inl ⟨ha, hb⟩
      · exact Or.inr (Or.inl ⟨ha, hb⟩)
      · rw [h3] at hw
        cases hw
      · exact Or.inr (Or.inr hh)
  · intro g hg
    have hfil : (g.map jsToLower).filter keepClass = [] := by
      rw [List.filter_eq_nil_iff]
      intro a ha
      obtain ⟨c, hc, rfl⟩ := List.mem_map.mp ha
      rw [hg c hc]
      simp
    unfold goalToSessionName
    rw [hfil]
    rfl

/-- Witness for C8 (amended): an all-special-character input slugs to the
empty string. -/
theorem goalToSessionName_spec_witness : goalToSessionName "!?!".toList = [] :=
  goalToSessionName_spec.2.2.2.2 "!?!".toList (by decide)

/-- Counterexample for C8 as stated: the source's regex keeps ALL
whitespace (`\s`), not only the space character, so a tab is collapsed to a
hyphen instead of being stripped: `goalToSessionName "a\tb" = "a-b"` while
the claim's literal pipeline yields `"ab"`. -/
theorem goalToSessionName_counterexample :
    goalToSessionName ('a' :: '\t' :: ['b']) = "a-b".toList ∧
    goalToSessionNameClaimedSpec ('a' :: '\t' :: ['b']) = "ab".toList ∧
    goalToSessionName ('a' :: '\t' :: ['b']) ≠
      goalToSessionNameClaimedSpec ('a' :: '\t' :: ['b']) :=
  ⟨by decide, by decide, by decide⟩

/-! ## C10: `getSessionHeader` totality and the missing-newline quirk -/

/-- A file whose entire content is a valid session-header JSON object with
no trailing newline. -/
def sessionNoNewlineContent : Str :=
  [lbrace] ++ "\"type\":\"session\",\"parentSession\":\"C\"".toList ++ [rbrace]

/-- A filesystem where `A`'s header (newline-terminated) names `B` as
parent, and `B`'s content is a valid header WITHOUT a trailing newline. -/
def fsQuirk : FS :=
  [("A".toList,
    [lbrace] ++ "\"type\":\"session\",\"parentSession\":\"B\"".toList ++
      [rbrace] ++ "\nrest".toList),
   ("B".toList, sessionNoNewlineContent)]

/-- C10: `getSessionHeader` is total — it returns either a header whose
`type` is `"session"` or `null`, and never throws (in this embedding the
source's `try/catch` is the `Option`): a returned header always passed the
`type === "session"` check.  When the file content contains no newline,
`indexOf("\n")` is `-1` and `slice(0, -1)` removes the final character, so
the parsed line is the content minus its last character; consequently a
file whose entire content is a valid session-header object without a
trailing newline yields `null`, and `getSessionAncestry` ends the chain at
such a file even though its header names a parent. -/
theorem getSessionHeader_quirks :
    (∀ (fs : FS) (p : Str) (h : SessionHeaderM), getSessionHeader fs p = some h →
      lookupField h.fields "type".toList = some (JVal.str "session".toList)) ∧
    (∀ content : Str, '\n' ∉ content →
      firstLineOf content = jsTrim content.dropLast) ∧
    parseJsonFlat sessionNoNewlineContent =
      some [("type".toList, JVal.str "session".toList),
            ("parentSession".toList, JVal.str "C".toList)] ∧
    getSessionHeader fsQuirk "B".toList = none ∧
    getSessionAncestry fsQuirk "A".toList = ["A".toList, "B".toList] := by
  refine ⟨?_, ?_, by decide, by decide, by decide⟩
  · intro fs p h hsome
    unfold getSessionHeader at hsome
    rcases hl : fsLookup fs p with _ | content
    · rw [hl] at hsome
      cases hsome
    · rw [hl] at hsome
      dsimp only at hsome
      by_cases hfl : firstLineOf content = []
      · rw [if_pos hfl] at hsome
        cases hsome
      · rw [if_neg hfl] at hsome
        rcases hp : parseJsonFlat (firstLineOf content) with _ | fields
        · rw [hp] at hsome
          cases hsome
        · rw [hp] at hsome
          dsimp only at hsome
          by_cases hty : lookupField fields "type".toList =
              some (JVal.str "session".toList)
          · rw [if_pos hty] at hsome
            cases hsome
            exact hty
          · rw [if_neg hty] at hsome
            cases hsome
  · intro content hnl
    unfold firstLineOf jsIndexOfChar
    have hf : content.findIdx? (· = '\n') = none := by
      rw [List.findIdx?_eq_none_iff]
      intro x hx
      cases hc : decide (x = '\n')
      · rfl
      · rw [decide_eq_true_eq] at hc
        subst hc
        exact absurd hx hnl
    rw [hf]
    unfold jsSliceTo
    rw [if_pos (by decide)]
    rw [List.dropLast_eq_take]
    congr 1
    have h1 : ((-1 : Int)).natAbs = 1 := rfl
    rw [h1]
    rcases Nat.eq_zero_or_pos content.length with h2 | h2
    · rw [h2]
      simp
    · rw [Nat.min_eq_right h2]

/-- Witness for C10 at a concrete newline-free content: the header line is
the content minus its final character, and a concrete stored header passes
the type check. -/
theorem getSessionHeader_quirks_witness :
    firstLineOf "abc".toList = jsTrim ("abc".toList).dropLast ∧
    lookupField (SessionHeaderM.mk
        [("type".toList, JVal.str "session".toList)]).fields "type".toList =
      some (JVal.str "session".toList) :=
  ⟨getSessionHeader_quirks.2.1 "abc".toList (by decide),
   getSessionHeader_quirks.1
     [("X".toList, [lbrace] ++ "\"type\":\"session\"".toList ++ [rbrace] ++ "\n".toList)]
     "X".toList ⟨[("type".toList, JVal.str "session".toList)]⟩ (by decide)⟩
